import Mathlib

/-!
Verification of the T30_Mazad name-resolution engine against its specification.

The Python sources are shallowly embedded as pure Lean functions:

* `scripts/stage2_match_names.py` — `normalize`, `load_players`,
  `compute_career_score`, `fuzzy_match`, `build_ngrams`, `process_pass`;
* `src/names.py` — `normalize` (a second, independent implementation);
* `src/eval.py` — `RuleBasedConditionChecker.check` and the knowledge base;
* `scripts/asr_steps/common.py` — `score_player`, `select_prompt_names`.

Modelling conventions:

* Python strings are Lean `String`s (a list of characters).  `str.lower` is
  modelled by ASCII case folding (`Char.toLower`); Python additionally folds
  a few non-ASCII letters, but every consumer in these sources immediately
  filters to ASCII `[a-z0-9 ]`, so the difference is invisible to the
  properties below except through characters none of the claims exercise.
* Python floats are modelled as exact rationals `ℚ`.  The single
  transcendental operation in the sources (`math.log10` inside
  `compute_career_score`) is abstracted as an explicit function parameter.
* Python's stable `list.sort(key=k, reverse=True)` is modelled by Mathlib's
  `List.insertionSort` with the relation `fun a b => k b ≤ k a`: both are
  the (unique) stable sort for that total preorder.
* Python dicts used as read/write caches are modelled as functions
  `String → Option _` with functional update.
-/

/- Batteries marks the `Rat` arithmetic operations `@[irreducible]`, which
blocks elaborator-side evaluation (`decide` on concrete rational
computations) although the kernel accepts their unfolding.  Restore the
default reducibility so concrete runs of the embedded code evaluate. -/
set_option allowUnsafeReducibility true in
attribute [semireducible] Rat.add Rat.mul Rat.inv Rat.sub Rat.neg Rat.ofScientific

namespace Mazad

/-! ### Character classes and Python string primitives -/

/-- Model of the character class `[a-z0-9]` used by the regex in
`stage2_match_names.normalize` (`_WORD_RE`). -/
def isWordChar (c : Char) : Bool :=
  decide ((97 ≤ c.toNat ∧ c.toNat ≤ 122) ∨ (48 ≤ c.toNat ∧ c.toNat ≤ 57))

/-- Model of the ASCII whitespace characters stripped by Python's
`str.strip()` with no argument. -/
def isPySpace (c : Char) : Bool :=
  decide (c.toNat = 32 ∨ c.toNat = 9 ∨ c.toNat = 10 ∨ c.toNat = 13 ∨
    c.toNat = 11 ∨ c.toNat = 12)

/-- Model of Python `str.lower()` (ASCII case folding; see the header note). -/
def lowerStr (s : String) : String := ⟨s.data.map Char.toLower⟩

/-- Maximal runs of characters satisfying `p`, accumulator form.  `runsP p`
below models `re.findall` for the character class `p` and also Python's
argumentless `str.split()` (with `p := fun c => !isPySpace c`). -/
def runsAux (p : Char → Bool) : List Char → List Char → List (List Char)
  | [], acc => if acc.isEmpty then [] else [acc.reverse]
  | c :: cs, acc =>
    if p c then runsAux p cs (c :: acc)
    else if acc.isEmpty then runsAux p cs []
    else acc.reverse :: runsAux p cs []

/-- Maximal runs of characters satisfying `p` in a character list. -/
def runsP (p : Char → Bool) (cs : List Char) : List (List Char) :=
  runsAux p cs []

/-- Join character lists with single `' '` separators: Python
`" ".join(parts)` restricted to the parts produced by `runsP`. -/
def joinSp : List (List Char) → List Char
  | [] => []
  | [w] => w
  | w :: ws => w ++ ' ' :: joinSp ws

/-- Model of Python `str.strip()` on a character list. -/
def pyStrip (cs : List Char) : List Char :=
  ((cs.dropWhile isPySpace).reverse.dropWhile isPySpace).reverse

/-- Embedding of `normalize` from `scripts/stage2_match_names.py`:
lowercase, extract `[a-z0-9]+` runs, join with single spaces, strip. -/
def normalize (s : String) : String :=
  ⟨pyStrip (joinSp (runsP isWordChar (s.data.map Char.toLower)))⟩

/-- Model of the character class `[a-z0-9 ]` kept by the regex substitution
in `src/names.py`'s `normalize`. -/
def keepNameChar (c : Char) : Bool := isWordChar c || c = ' '

/-- Embedding of `normalize` from `src/names.py`:
`re.sub(r"[^a-z0-9 ]+", "", text.lower()).strip()`. -/
def namesNormalize (s : String) : String :=
  ⟨pyStrip ((s.data.map Char.toLower).filter keepNameChar)⟩

/-! ### Supporting lemmas for idempotence of the normalizers -/

theorem toLower_fix_of_wordChar {c : Char} (h : isWordChar c = true) :
    c.toLower = c := by
  have hc : (97 ≤ c.toNat ∧ c.toNat ≤ 122) ∨ (48 ≤ c.toNat ∧ c.toNat ≤ 57) := by
    simpa [isWordChar] using h
  simp only [Char.toLower]
  have : ¬ (65 ≤ c.val.toNat ∧ c.val.toNat ≤ 90) := by
    rcases hc with ⟨h1, h2⟩ | ⟨h1, h2⟩ <;> simp only [Char.toNat] at h1 h2 <;> omega
  split
  · next hcond => exact absurd ⟨hcond.1, hcond.2⟩ this
  · rfl

theorem toLower_fix_of_space : Char.toLower ' ' = ' ' := by decide

theorem wordChar_not_space {c : Char} (h : isWordChar c = true) :
    isPySpace c = false := by
  have hc : (97 ≤ c.toNat ∧ c.toNat ≤ 122) ∨ (48 ≤ c.toNat ∧ c.toNat ≤ 57) := by
    simpa [isWordChar] using h
  simp only [isPySpace, decide_eq_false_iff_not]
  omega

theorem runsAux_valid (p : Char → Bool) :
    ∀ (cs acc : List Char), (∀ c ∈ acc, p c = true) →
      ∀ w ∈ runsAux p cs acc, w ≠ [] ∧ ∀ c ∈ w, p c = true
  | [], acc, hacc => by
    intro w hw
    simp only [runsAux] at hw
    split at hw
    · simp at hw
    · next hne =>
      simp only [List.mem_singleton] at hw
      subst hw
      refine ⟨by simpa using (@List.isEmpty_iff _ acc).not.mp (by simpa using hne), ?_⟩
      intro c hc
      exact hacc c (List.mem_reverse.mp hc)
  | c :: cs, acc, hacc => by
    intro w hw
    simp only [runsAux] at hw
    split at hw
    · next hp =>
      refine runsAux_valid p cs (c :: acc) ?_ w hw
      intro d hd
      rcases List.mem_cons.mp hd with h | h
      · subst h; exact hp
      · exact hacc d h
    · split at hw
      · exact runsAux_valid p cs [] (by simp) w hw
      · next hne =>
        rcases List.mem_cons.mp hw with h | h
        · subst h
          refine ⟨by simpa using (@List.isEmpty_iff _ acc).not.mp (by simpa using hne), ?_⟩
          intro d hd
          exact hacc d (List.mem_reverse.mp hd)
        · exact runsAux_valid p cs [] (by simp) w h

theorem runsP_valid (p : Char → Bool) (cs : List Char) :
    ∀ w ∈ runsP p cs, w ≠ [] ∧ ∀ c ∈ w, p c = true :=
  runsAux_valid p cs [] (by simp)

theorem runsAux_word (p : Char → Bool) :
    ∀ (w : List Char) (r acc : List Char), (∀ c ∈ w, p c = true) →
      runsAux p (w ++ r) acc = runsAux p r (w.reverse ++ acc)
  | [], r, acc, _ => by simp
  | c :: w, r, acc, h => by
    have hc : p c = true := h c (by simp)
    have hstep : (c :: w) ++ r = c :: (w ++ r) := rfl
    rw [hstep, runsAux, if_pos hc,
      runsAux_word p w r (c :: acc) (fun d hd => h d (by simp [hd]))]
    simp

theorem runsAux_space (p : Char → Bool) (hp : p ' ' = false) (r : List Char)
    (acc : List Char) (hacc : acc ≠ []) :
    runsAux p (' ' :: r) acc = acc.reverse :: runsAux p r [] := by
  simp only [runsAux, hp]
  simp [List.isEmpty_iff, hacc]

theorem runsP_joinSp (p : Char → Bool) (hp : p ' ' = false) :
    ∀ ws : List (List Char), (∀ w ∈ ws, w ≠ [] ∧ ∀ c ∈ w, p c = true) →
      runsP p (joinSp ws) = ws
  | [], _ => by simp [joinSp, runsP, runsAux]
  | [w], h => by
    obtain ⟨hne, hall⟩ := h w (by simp)
    show runsAux p (joinSp [w]) [] = [w]
    have : joinSp [w] = w ++ [] := by simp [joinSp]
    rw [this, runsAux_word p w [] [] hall]
    simp only [runsAux, List.append_nil]
    rw [if_neg (by simpa [List.isEmpty_iff] using hne)]
    simp
  | w :: w' :: ws, h => by
    obtain ⟨hne, hall⟩ := h w (by simp)
    show runsAux p (joinSp (w :: w' :: ws)) [] = w :: w' :: ws
    have hj : joinSp (w :: w' :: ws) = w ++ ' ' :: joinSp (w' :: ws) := by
      simp [joinSp]
    rw [hj, runsAux_word p w _ [] hall,
      runsAux_space p hp _ _ (by simpa using hne)]
    rw [show runsAux p (joinSp (w' :: ws)) [] = w' :: ws from
      runsP_joinSp p hp (w' :: ws) (fun u hu => h u (by simp [hu]))]
    simp

theorem joinSp_chars (p : Char → Bool) :
    ∀ ws : List (List Char), (∀ w ∈ ws, ∀ c ∈ w, p c = true) →
      ∀ c ∈ joinSp ws, p c = true ∨ c = ' '
  | [], _ => by simp [joinSp]
  | [w], h => by
    intro c hc
    exact Or.inl (h w (by simp) c (by simpa [joinSp] using hc))
  | w :: w' :: ws, h => by
    intro c hc
    simp only [joinSp, List.mem_append, List.mem_cons] at hc
    rcases hc with hc | hc | hc
    · exact Or.inl (h w (by simp) c hc)
    · exact Or.inr hc
    · exact joinSp_chars p (w' :: ws) (fun u hu => h u (by simp [hu])) c hc

theorem joinSp_reverse_head (p : Char → Bool) :
    ∀ ws : List (List Char), ws ≠ [] →
      (∀ w ∈ ws, w ≠ [] ∧ ∀ c ∈ w, p c = true) →
      ∃ d t, (joinSp ws).reverse = d :: t ∧ p d = true
  | [], h, _ => absurd rfl h
  | [w], _, h => by
    obtain ⟨hne, hall⟩ := h w (by simp)
    have hrev : w.reverse ≠ [] := by simpa using hne
    obtain ⟨d, t, hd⟩ := List.exists_cons_of_ne_nil hrev
    refine ⟨d, t, ?_, ?_⟩
    · simpa [joinSp] using hd
    · have hmem : d ∈ w.reverse := by rw [hd]; simp
      exact hall d (List.mem_reverse.mp hmem)
  | w :: w' :: ws, _, h => by
    obtain ⟨d, t, hdt, hd⟩ := joinSp_reverse_head p (w' :: ws) (by simp)
      (fun u hu => h u (by simp [hu]))
    refine ⟨d, t ++ ' ' :: w.reverse, ?_, hd⟩
    have hj : joinSp (w :: w' :: ws) = w ++ ' ' :: joinSp (w' :: ws) := by
      simp [joinSp]
    rw [hj, List.reverse_append, List.reverse_cons, hdt]
    simp

theorem dropWhile_idem (p : α → Bool) :
    ∀ l : List α, (l.dropWhile p).dropWhile p = l.dropWhile p
  | [] => rfl
  | a :: l => by
    by_cases h : p a
    · simp [List.dropWhile_cons, h, dropWhile_idem p l]
    · simp [List.dropWhile_cons, h]

theorem dropWhile_head_false (p : α → Bool) :
    ∀ {l : List α} {c : α} {t : List α}, l.dropWhile p = c :: t → p c = false
  | [], c, t => by simp
  | a :: l, c, t => by
    by_cases h : p a
    · rw [List.dropWhile_cons, if_pos h]
      exact fun hl => dropWhile_head_false p hl
    · rw [List.dropWhile_cons, if_neg h]
      intro hl
      cases hl
      simpa using h

theorem pyStrip_idem (cs : List Char) : pyStrip (pyStrip cs) = pyStrip cs := by
  unfold pyStrip
  set y := cs.dropWhile isPySpace with hy
  set z := (y.reverse.dropWhile isPySpace).reverse with hz
  have hdz : z.dropWhile isPySpace = z := by
    cases hzz : z with
    | nil => simp [hzz]
    | cons c t =>
      obtain ⟨pre, hpre⟩ := @List.dropWhile_suffix _ y.reverse isPySpace
      have hyz : y = z ++ pre.reverse := by
        have hrev := congrArg List.reverse hpre
        rw [List.reverse_append, List.reverse_reverse] at hrev
        rw [hz]
        exact hrev.symm
      have hyc : y = c :: (t ++ pre.reverse) := by
        rw [hyz, hzz]; rfl
      have hdw : List.dropWhile isPySpace cs = c :: (t ++ pre.reverse) :=
        hy.symm.trans hyc
      have hcf : isPySpace c = false := dropWhile_head_false isPySpace hdw
      simp [hzz, List.dropWhile_cons, hcf]
  rw [hdz, hz]
  rw [List.reverse_reverse, dropWhile_idem]

theorem pyStrip_subset {cs : List Char} : ∀ c ∈ pyStrip cs, c ∈ cs := by
  intro c hc
  unfold pyStrip at hc
  rw [List.mem_reverse] at hc
  have h1 : c ∈ (cs.dropWhile isPySpace).reverse :=
    (List.dropWhile_suffix _).subset hc
  rw [List.mem_reverse] at h1
  exact (List.dropWhile_suffix _).subset h1

theorem pyStrip_eq_self_of_word_ends (p : Char → Bool)
    (hsp : ∀ c, p c = true → isPySpace c = false) :
    ∀ ws : List (List Char), (∀ w ∈ ws, w ≠ [] ∧ ∀ c ∈ w, p c = true) →
      pyStrip (joinSp ws) = joinSp ws
  | [], _ => by simp [joinSp, pyStrip]
  | w :: ws', h => by
    obtain ⟨hne, hall⟩ := h w (by simp)
    obtain ⟨c, w', hw⟩ := List.exists_cons_of_ne_nil hne
    have hhead : ∃ t, joinSp (w :: ws') = c :: t := by
      cases ws' with
      | nil => exact ⟨w', by simp [joinSp, hw]⟩
      | cons u us => exact ⟨w' ++ ' ' :: joinSp (u :: us), by simp [joinSp, hw]⟩
    obtain ⟨t, ht⟩ := hhead
    have hc : p c = true := hall c (by simp [hw])
    have h1 : (joinSp (w :: ws')).dropWhile isPySpace = joinSp (w :: ws') := by
      rw [ht, List.dropWhile_cons, if_neg (by simp [hsp c hc])]
    obtain ⟨d, tr, hdt, hd⟩ := joinSp_reverse_head p (w :: ws') (by simp) h
    have h2 : (joinSp (w :: ws')).reverse.dropWhile isPySpace
        = (joinSp (w :: ws')).reverse := by
      rw [hdt, List.dropWhile_cons, if_neg (by simp [hsp d hd])]
    unfold pyStrip
    rw [h1, h2, List.reverse_reverse]

theorem map_eq_self_of_fix {f : α → α} :
    ∀ {l : List α}, (∀ c ∈ l, f c = c) → l.map f = l
  | [], _ => rfl
  | a :: l, h => by
    rw [List.map_cons, h a (by simp), map_eq_self_of_fix (fun c hc => h c (by simp [hc]))]

/-- Claim C5, first half: the `stage2_match_names.py` normalizer is
idempotent.  Key facts: its output consists only of `[a-z0-9]` characters
and single interior spaces, on which lowercasing is the identity, run
extraction returns exactly the runs, and stripping is the identity. -/
theorem normalize_idem (s : String) : normalize (normalize s) = normalize s := by
  unfold normalize
  set ws := runsP isWordChar (s.data.map Char.toLower) with hws
  have hvalid : ∀ w ∈ ws, w ≠ [] ∧ ∀ c ∈ w, isWordChar c = true :=
    runsP_valid isWordChar _
  have hstrip : pyStrip (joinSp ws) = joinSp ws :=
    pyStrip_eq_self_of_word_ends isWordChar (fun c hc => wordChar_not_space hc) ws hvalid
  have hchars : ∀ c ∈ joinSp ws, isWordChar c = true ∨ c = ' ' :=
    joinSp_chars isWordChar ws (fun w hw => (hvalid w hw).2)
  have hlower : (joinSp ws).map Char.toLower = joinSp ws := by
    apply map_eq_self_of_fix
    intro c hc
    rcases hchars c hc with h | h
    · exact toLower_fix_of_wordChar h
    · rw [h]; exact toLower_fix_of_space
  congr 1
  show pyStrip (joinSp (runsP isWordChar ((pyStrip (joinSp ws)).map Char.toLower)))
      = pyStrip (joinSp ws)
  rw [hstrip, hlower, runsP_joinSp isWordChar (by decide) ws hvalid]
  exact hstrip

/-- Claim C5, second half: the `src/names.py` normalizer is idempotent.
Its output chars all lie in `[a-z0-9 ]`, on which lowercasing and the
filter are the identity, and `strip` is idempotent. -/
theorem namesNormalize_idem (s : String) :
    namesNormalize (namesNormalize s) = namesNormalize s := by
  unfold namesNormalize
  set ys := pyStrip ((s.data.map Char.toLower).filter keepNameChar) with hys
  have hmem : ∀ c ∈ ys, keepNameChar c = true := by
    intro c hc
    exact List.of_mem_filter (pyStrip_subset c hc)
  have hlower : ys.map Char.toLower = ys := by
    apply map_eq_self_of_fix
    intro c hc
    rcases Bool.or_eq_true _ _ |>.mp (hmem c hc) with h | h
    · exact toLower_fix_of_wordChar h
    · rw [show c = ' ' by simpa using h]; exact toLower_fix_of_space
  have hfilter : ys.filter keepNameChar = ys := List.filter_eq_self.mpr hmem
  congr 1
  rw [hlower, hfilter, pyStrip_idem]

/-! ### More Python string primitives -/

/-- Model of Python's substring test: `substrChars n h` decides `n in h`
for character lists. -/
def substrChars (n : List Char) : List Char → Bool
  | [] => n.isEmpty
  | c :: t => n.isPrefixOf (c :: t) || substrChars n t

/-- Python `needle in hay` on strings. -/
def strContains (hay needle : String) : Bool := substrChars needle.data hay.data

/-- Everything after the first occurrence of `sep`, or `none` when `sep`
does not occur: the tail component of Python's `s.split(sep, 1)`. -/
def splitTailChars (sep : List Char) : List Char → Option (List Char)
  | [] => if sep.isEmpty then some [] else none
  | c :: t =>
    if sep.isPrefixOf (c :: t) then some ((c :: t).drop sep.length)
    else splitTailChars sep t

/-- Python `s.split(sep, 1)[1]`.  The sources only evaluate this under a
guard that `sep in s`, so the `none` case is totalized to `""`. -/
def splitAfterFirst (s sep : String) : String :=
  ⟨(splitTailChars sep.data s.data).getD []⟩

/-- Python `s.strip(chars)`: remove characters of `chs` from both ends. -/
def stripCharsOf (chs : List Char) (cs : List Char) : List Char :=
  ((cs.dropWhile (chs.contains ·)).reverse.dropWhile (chs.contains ·)).reverse

/-- String version of `stripCharsOf`. -/
def stripStr (chs : List Char) (s : String) : String := ⟨stripCharsOf chs s.data⟩

/-- Python argumentless `str.split()`: maximal non-whitespace runs. -/
def splitWs (s : String) : List String :=
  (runsP (fun c => !isPySpace c) s.data).map (⟨·⟩)

/-- String version of `pyStrip` (Python `str.strip()`). -/
def pyStripStr (s : String) : String := ⟨pyStrip s.data⟩

/-! ### Python's stable sort

`list.sort(key=k)` and `sorted(xs, key=k)` are stable sorts; with
`reverse=True` all comparisons are reversed but ties still keep their
original order.  Both are modelled by `List.insertionSort` (Mathlib's
stable insertion sort) with the relation `k a ≤ k b`, resp. `k b ≤ k a`. -/

/-- Code-point lexicographic `≤` on character lists: exactly Python's
string comparison (and kernel-computable, unlike Mathlib's `String` order,
which it coincides with on these inputs). -/
def strLeB : List Char → List Char → Bool
  | [], _ => true
  | _ :: _, [] => false
  | a :: as, b :: bs =>
    if a.toNat < b.toNat then true
    else if b.toNat < a.toNat then false
    else strLeB as bs

/-- Python's `≤` on strings. -/
def pyStrLe (a b : String) : Prop := strLeB a.data b.data = true

instance : DecidableRel pyStrLe := fun a b =>
  inferInstanceAs (Decidable (strLeB a.data b.data = true))

theorem strLeB_total : ∀ x y, strLeB x y = true ∨ strLeB y x = true
  | [], y => by left; cases y <;> rfl
  | _ :: _, [] => by right; rfl
  | a :: as, b :: bs => by
    by_cases h1 : a.toNat < b.toNat
    · left; simp [strLeB, h1]
    · by_cases h2 : b.toNat < a.toNat
      · right; simp [strLeB, h2]
      · rcases strLeB_total as bs with h | h
        · left; simpa [strLeB, h1, h2] using h
        · right; simpa [strLeB, h1, h2] using h

theorem strLeB_trans :
    ∀ x y z, strLeB x y = true → strLeB y z = true → strLeB x z = true
  | [], _, z, _, _ => by cases z <;> rfl
  | _ :: _, [], _, hxy, _ => by simp [strLeB] at hxy
  | _ :: _, _ :: _, [], _, hyz => by simp [strLeB] at hyz
  | a :: as, b :: bs, c :: cs, hxy, hyz => by
    simp only [strLeB] at hxy hyz ⊢
    split at hxy
    · next h1 =>
      split at hyz
      · next h2 => rw [if_pos (by omega)]
      · split at hyz
        · next => simp at hyz
        · next h2 h3 =>
          have : b.toNat = c.toNat := by omega
          rw [if_pos (by omega)]
    · split at hxy
      · next => simp at hxy
      · next h1 h2 =>
        have hab : a.toNat = b.toNat := by omega
        split at hyz
        · next h3 => rw [if_pos (by omega)]
        · split at hyz
          · next => simp at hyz
          · next h3 h4 =>
            rw [if_neg (by omega), if_neg (by omega)]
            exact strLeB_trans as bs cs hxy hyz

instance pyStrLeTotal : IsTotal String pyStrLe :=
  ⟨fun a b => strLeB_total a.data b.data⟩

instance pyStrLeTrans : IsTrans String pyStrLe :=
  ⟨fun a b c => strLeB_trans a.data b.data c.data⟩

instance pyKeyRevTotal {α β : Type} [LinearOrder β] (k : α → β) :
    IsTotal α (fun a b => k b ≤ k a) := ⟨fun a b => le_total (k b) (k a)⟩

instance pyKeyRevTrans {α β : Type} [LinearOrder β] (k : α → β) :
    IsTrans α (fun a b => k b ≤ k a) := ⟨fun _ _ _ h1 h2 => le_trans h2 h1⟩

instance pyKeyTotal {α β : Type} [LinearOrder β] (k : α → β) :
    IsTotal α (fun a b => k a ≤ k b) := ⟨fun a b => le_total (k a) (k b)⟩

instance pyKeyTrans {α β : Type} [LinearOrder β] (k : α → β) :
    IsTrans α (fun a b => k a ≤ k b) := ⟨fun _ _ _ h1 h2 => le_trans h1 h2⟩

/-- Claim C5: both `normalize` implementations (in
`scripts/stage2_match_names.py` and `src/names.py`) are idempotent for every
input string; as total Lean functions they also witness that evaluation
always terminates without raising. -/
theorem c5_normalize_idempotent (s : String) :
    normalize (normalize s) = normalize s ∧
      namesNormalize (namesNormalize s) = namesNormalize s :=
  ⟨normalize_idem s, namesNormalize_idem s⟩

/-! ### Data model of `scripts/stage2_match_names.py`

A `PlayerObj` is a parsed player JSON record.  JSON parsing itself
(`json.loads`, skipping of blank/malformed lines) is I/O outside the model;
records enter as already-parsed objects.  Absent JSON fields are `none` /
`[]` / `0`.  `minutes_played`, `goals` and `assists` are the §3 data-model
counts and therefore carried as `Nat`.  The `career_score` field models the
`"_career_score"` slot that `load_players` writes into each record. -/

structure PlayerObj where
  name : Option String := none
  full_name : Option String := none
  aliases : List String := []
  nationality : Option String := none
  position : Option String := none
  club : Option String := none
  current_club : Option String := none
  clubs : List String := []
  league : Option String := none
  leagues : List String := []
  minutes_played : Nat := 0
  goals : Nat := 0
  assists : Nat := 0
  sources : List String := []
  career_score : Option ℚ := none
deriving DecidableEq, Repr, Inhabited

/-- Python's `a or b` on two optional strings (`""` and `None` are falsy). -/
def pyOr (a b : Option String) : Option String :=
  match a with
  | some s => if s = "" then b else some s
  | none => b

/-- Python's `(x or "")` for an optional string. -/
def optStr (a : Option String) : String := a.getD ""

/-- Embedding of the `LEAGUE_WEIGHTS` table. -/
def LEAGUE_WEIGHTS : List (String × ℚ) :=
  [("eng premier league", 100), ("premier league", 100),
   ("english premier league", 100), ("gb1", 100),
   ("es la liga", 95), ("la liga", 95), ("es1", 95),
   ("de bundesliga", 90), ("bundesliga", 90), ("l1", 90),
   ("it serie a", 88), ("serie a", 88), ("it1", 88),
   ("fr ligue 1", 85), ("ligue 1", 85), ("fr1", 85),
   ("eredivisie", 70), ("nl1", 70),
   ("primeira liga", 70), ("pt1", 70),
   ("scottish premiership", 60),
   ("championship", 55), ("eng championship", 55),
   ("mls", 50),
   ("champions league", 120), ("ucl", 120),
   ("europa league", 80),
   ("world cup", 150),
   ("euro", 130)]

/-- Embedding of the `CLUB_WEIGHTS` table. -/
def CLUB_WEIGHTS : List (String × ℚ) :=
  [("manchester city", 95), ("manchester city football club", 95),
   ("liverpool", 95), ("liverpool fc", 95),
   ("arsenal", 90), ("arsenal fc", 90),
   ("chelsea", 88), ("chelsea fc", 88),
   ("manchester united", 88), ("manchester united football club", 88),
   ("tottenham", 80), ("tottenham hotspur", 80),
   ("real madrid", 98), ("real madrid club de fútbol", 98),
   ("barcelona", 95), ("fc barcelona", 95),
   ("atletico madrid", 85),
   ("bayern munich", 95), ("fc bayern münchen", 95),
   ("borussia dortmund", 82),
   ("juventus", 88),
   ("inter milan", 85), ("inter", 85),
   ("ac milan", 85), ("milan", 85),
   ("paris saint-germain", 90), ("psg", 90)]

/-- Python `table.get(key, dflt)` on a weight table. -/
def weightOf (tbl : List (String × ℚ)) (k : String) (dflt : ℚ) : ℚ :=
  (tbl.lookup k).getD dflt

/-- Model of Python `round(x, 2)`: round to the nearest multiple of 1/100,
ties to even (Python floats also incur binary representation error, which
an exact-rational model deliberately ignores; every concrete value below is
float-exact). -/
def round2 (q : ℚ) : ℚ :=
  let n : ℤ := ⌊q * 100⌋
  let frac : ℚ := q * 100 - n
  let m : ℤ :=
    if frac < 1/2 then n
    else if 1/2 < frac then n + 1
    else if n % 2 = 0 then n else n + 1
  (m : ℚ) / 100

/-- Embedding of `compute_career_score`.  Python floats are exact rationals
here; the single transcendental operation `math.log10(minutes + 1)` is
abstracted as the explicit parameter `lg` (theorems assume of it only what
`float` log10 guarantees, e.g. non-negativity on arguments ≥ 1). -/
def compute_career_score (lg : ℕ → ℚ) (p : PlayerObj) : ℚ :=
  let s1 : ℚ := weightOf CLUB_WEIGHTS (lowerStr (optStr p.club)) 30
  let s2 : ℚ := (p.clubs.map (fun c => weightOf CLUB_WEIGHTS (lowerStr c) 20 * (3/10))).sum
  let s3 : ℚ := weightOf LEAGUE_WEIGHTS (lowerStr (optStr p.league)) 20
  let s4 : ℚ := (p.leagues.map (fun l => weightOf LEAGUE_WEIGHTS (lowerStr l) 15 * (1/5))).sum
  let s5 : ℚ := if 0 < p.minutes_played then min 25 (lg (p.minutes_played + 1) * 8) else 0
  let s6 : ℚ := (p.goals : ℚ) * (3/2) + (p.assists : ℚ)
  let s7 : ℚ := (p.sources.length : ℚ) * 5
  let s8 : ℚ := if p.sources.contains ("worldcup") then 30 else 0
  round2 (s1 + s2 + s3 + s4 + s5 + s6 + s7 + s8)

/-- One step of the alias-collection loop in `load_players`
(`if alias and alias not in names: names.append(alias)`). -/
def addAlias (names : List String) (a : String) : List String :=
  if a ≠ "" ∧ a ∉ names then names ++ [a] else names

/-- Name variants collected for one record by `load_players`: canonical
name, full name if distinct, last whitespace token if multi-word, aliases
not already present. -/
def variantNames (p : PlayerObj) (nm : String) : List String :=
  let n1 := [nm]
  let n2 :=
    match p.full_name with
    | some fn => if fn ≠ "" ∧ fn ∉ n1 then n1 ++ [fn] else n1
    | none => n1
  let parts := splitWs nm
  let n3 := if 1 < parts.length then n2 ++ [parts.getLastD ("")] else n2
  p.aliases.foldl addAlias n3

/-- Embedding of `load_players` (on parsed records): skip records with no
usable name, attach the career score, index every normalized non-empty name
variant, and finally sort each key's list by career score descending (a
stable sort) and return the ascending sorted set of distinct keys.
`players_by_name` is modelled as a total function with Python's
`.get(key, [])` default. -/
def load_players (lg : ℕ → ℚ) (records : List PlayerObj) :
    (String → List PlayerObj) × List String :=
  let step := fun (acc : (String → List PlayerObj) × List String) (obj : PlayerObj) =>
    match pyOr obj.name obj.full_name with
    | none => acc
    | some nm =>
      let obj' := { obj with career_score := some (compute_career_score lg obj) }
      (variantNames obj' nm).foldl
        (fun acc2 cand =>
          let key := normalize cand
          if key = "" then acc2
          else ((fun k => if k = key then acc2.1 k ++ [obj'] else acc2.1 k),
                acc2.2 ++ [key]))
        acc
  let raw := records.foldl step ((fun _ => []), [])
  (fun k => (raw.1 k).insertionSort
      (fun a b => (b.career_score).getD 0 ≤ (a.career_score).getD 0),
   (raw.2.dedup).insertionSort pyStrLe)

/-- Count of position-wise differing characters over `zip` (used by the
fallback fuzzy matcher for 1-character-difference tolerance). -/
def hammingDiff (a b : List Char) : Nat :=
  ((a.zip b).filter (fun cp => cp.1 ≠ cp.2)).length

/-- Embedding of `fuzzy_match`.  The `rapidfuzz`/`thefuzz` branches call an
external third-party scorer (`fuzz.WRatio`) that is not part of this
repository; the embedded behaviour is the in-repo fallback branch
(`HAS_RAPIDFUZZ = HAS_THEFUZZ = False`).  Note the fallback never consults
`threshold`; the parameter is kept for signature fidelity. -/
def fuzzy_match (query : String) (choices : List String) (limit : Nat)
    (threshold : ℤ) : List (String × ℤ) :=
  if query = "" ∨ choices = [] then []
  else
    let ql := lowerStr query
    let found := choices.filterMap (fun choice =>
      if ql = choice then some (choice, (100 : ℤ))
      else if strContains choice ql || strContains ql choice then
        some (choice, 85)
      else if ql.length = choice.length ∧ ql.length ≤ 5 ∧
          hammingDiff ql.data choice.data = 1 then some (choice, 75)
      else none)
    (found.insertionSort (fun a b => -a.2 ≤ -b.2)).take limit

/-! ### Tokens, n-grams and `process_pass` -/

/-- A token of ASR output as read by `load_tokens_csv` (timings and
probabilities are floats, modelled as `ℚ`). -/
structure Token where
  token : String := ""
  segment_start : ℚ := 0
  segment_end : ℚ := 0
  probability : ℚ := 0
  avg_logprob : ℚ := 0
deriving DecidableEq, Repr, Inhabited

/-- Embedding of `build_ngrams`: for each window size in
`range(min_n, max_n + 1)` and each start with a full window, join the
normalized tokens with single spaces and strip; skip empty chunks. -/
def build_ngrams (tokens : List Token) (min_n max_n : Nat) :
    List (String × Nat × Nat × List Token) :=
  (List.range' min_n (max_n + 1 - min_n)).flatMap (fun n =>
    (List.range (tokens.length + 1 - n)).filterMap (fun i =>
      let slice := (tokens.drop i).take n
      let chunk := pyStripStr (String.intercalate (" ")
        (slice.map (fun t => normalize t.token)))
      if chunk = "" then none else some (chunk, i, i + n - 1, slice)))

/-- The denormalized `"player"` payload carried inside a suggestion. -/
structure PlayerSummary where
  name : Option String := none
  full_name : Option String := none
  nationality : Option String := none
  position : Option String := none
  current_club : Option String := none
  career_score : ℚ := 0
deriving DecidableEq, Repr, Inhabited

/-- A suggestion produced by the matcher for one n-gram. -/
structure Suggestion where
  name : Option String := none
  match_type : String := ""
  score : ℤ := 0
  career_score : ℚ := 0
  player : PlayerSummary := ⟨none, none, none, none, none, 0⟩
deriving DecidableEq, Repr, Inhabited

/-- Build one suggestion dict as `process_pass` does. -/
def mkSugg (mtype : String) (score : ℤ) (p : PlayerObj) : Suggestion :=
  let nm := pyOr p.name p.full_name
  let cs := (p.career_score).getD 0
  { name := nm, match_type := mtype, score := score, career_score := cs,
    player := { name := nm, full_name := p.full_name,
                nationality := p.nationality, position := p.position,
                current_club := pyOr p.current_club p.club,
                career_score := cs } }

/-- One match record of `process_pass`. -/
structure MatchRecord where
  passNum : Nat
  ngram : String
  token_indices : Nat × Nat
  segment_start : ℚ
  segment_end : ℚ
  avg_probability : ℚ
  suggestions : List Suggestion
deriving DecidableEq, Repr, Inhabited

/-- Sort key of the final suggestion sort:
`(s["score"] or 0, s["career_score"] or 0.0)` (the `or` defaults are the
identity on the always-present numeric fields). -/
def suggKey (s : Suggestion) : ℤ ×ₗ ℚ := toLex (s.score, s.career_score)

/-- The suggestion ordering used with `reverse=True`. -/
def suggLe (a b : Suggestion) : Prop := suggKey b ≤ suggKey a

instance : DecidableRel suggLe :=
  fun a b => inferInstanceAs (Decidable (suggKey b ≤ suggKey a))

instance suggLeTotal : IsTotal Suggestion suggLe :=
  ⟨fun a b => le_total (suggKey b) (suggKey a)⟩

instance suggLeTrans : IsTrans Suggestion suggLe :=
  ⟨fun _ _ _ h1 h2 => le_trans h2 h1⟩

/-- Python's stable `suggestions.sort(key=..., reverse=True)`. -/
def sortSuggs (l : List Suggestion) : List Suggestion := l.insertionSort suggLe

/-- Name-collision test used by both fuzzy dedup checks
(`s["name"].lower() == other.lower()`); `None` names compare as `""`. -/
def nameClash (acc : List Suggestion) (nm : String) : Bool :=
  acc.any (fun s => lowerStr (optStr s.name) == lowerStr nm)

/-- Inner fuzzy loop: up to 2 players per fuzzy key, skipping names already
suggested, breaking once `max_suggestions` is reached. -/
def fuzzyInner (maxS : Nat) (score : ℤ) :
    List PlayerObj → List Suggestion → List Suggestion
  | [], acc => acc
  | p :: ps, acc =>
    if nameClash acc (optStr (pyOr p.name p.full_name)) then
      fuzzyInner maxS score ps acc
    else if maxS ≤ (acc ++ [mkSugg ("fuzzy") score p]).length then
      acc ++ [mkSugg ("fuzzy") score p]
    else fuzzyInner maxS score ps (acc ++ [mkSugg ("fuzzy") score p])

/-- Outer fuzzy loop over the fuzzy-matched keys. -/
def fuzzyOuter (maxS : Nat) (dict : String → List PlayerObj) :
    List (String × ℤ) → List Suggestion → List Suggestion
  | [], acc => acc
  | (mname, score) :: rest, acc =>
    if nameClash acc mname then fuzzyOuter maxS dict rest acc
    else if maxS ≤ (fuzzyInner maxS score ((dict mname).take 2) acc).length then
      fuzzyInner maxS score ((dict mname).take 2) acc
    else
      fuzzyOuter maxS dict rest (fuzzyInner maxS score ((dict mname).take 2) acc)

/-- The matcher work done by `process_pass` on a cache miss: exact stage
followed (if short of `max_suggestions`) by the fuzzy stage. -/
def buildSuggestions (dict : String → List PlayerObj) (allNames : List String)
    (thr : ℤ) (maxS : Nat) (chunk : String) : List Suggestion :=
  if (((dict chunk).take maxS).map (mkSugg ("exact") 100)).length < maxS then
    fuzzyOuter maxS dict (fuzzy_match chunk allNames (maxS * 2) thr)
      (((dict chunk).take maxS).map (mkSugg ("exact") 100))
  else ((dict chunk).take maxS).map (mkSugg ("exact") 100)

/-- The shared search cache: n-gram text → cached suggestion list. -/
abbrev Cache := String → Option (List Suggestion)

/-- Functional update of the cache (Python dict assignment and, at sort
time, the in-place mutation of the stored list object). -/
def cacheUpdate (c : Cache) (k : String) (v : List Suggestion) : Cache :=
  fun k' => if k' = k then some v else c k'

/-- State threaded through `process_pass`.  `cacheHits` is the source's
counter; `matcherCalls` counts executions of the cache-miss branch (the
exact/fuzzy matcher work), instrumenting the C1 claim. -/
structure PassState where
  matchList : List MatchRecord
  seen : List String
  cache : Cache
  cacheHits : Nat
  matcherCalls : Nat

/-- Average per-token probability over the window. -/
def avgProb (slice : List Token) : ℚ :=
  (slice.map (·.probability)).sum / slice.length

/-- An (ngram text, start index, end index, token slice) tuple. -/
abbrev NGram := String × Nat × Nat × List Token

/-- The match record emitted for one n-gram whose (already in-place
sorted) suggestion list is `sorted`. -/
def mkRecord (passNum maxS : Nat) (ng : NGram) (sorted : List Suggestion) :
    MatchRecord :=
  let slice := ng.2.2.2
  { passNum := passNum, ngram := ng.1,
    token_indices := (ng.2.1, ng.2.2.1),
    segment_start := (slice.headD default).segment_start,
    segment_end := (slice.getLastD default).segment_end,
    avg_probability := avgProb slice,
    suggestions := sorted.take maxS }

/-- Tail of one `process_pass` iteration, after the cache probe produced
`suggs` (with the probe's resulting cache `c1` and counters): skip empty
suggestion lists; otherwise sort in place (visible in the cache, which
holds the same list object), record the n-gram as seen and emit a match
record with the sorted, truncated suggestions. -/
def processFound (passNum maxS : Nat) (st : PassState) (ng : NGram)
    (c1 : Cache) (suggs : List Suggestion) (hits calls : Nat) : PassState :=
  if suggs.isEmpty then
    { st with cache := c1, cacheHits := hits, matcherCalls := calls }
  else
    let sorted := sortSuggs suggs
    { matchList := st.matchList ++ [mkRecord passNum maxS ng sorted],
      seen := st.seen ++ [ng.1],
      cache := cacheUpdate c1 ng.1 sorted, cacheHits := hits,
      matcherCalls := calls }

/-- One iteration of the n-gram loop of `process_pass`: skip n-grams
already seen in this call, probe the shared cache, on a miss run the
matcher and store the full result (even when empty). -/
def processStep (passNum : Nat) (dict : String → List PlayerObj)
    (allNames : List String) (thr : ℤ) (maxS : Nat) (st : PassState)
    (ng : NGram) : PassState :=
  if st.seen.contains ng.1 then st
  else
    match st.cache ng.1 with
    | some suggs =>
      processFound passNum maxS st ng st.cache suggs (st.cacheHits + 1)
        st.matcherCalls
    | none =>
      let b := buildSuggestions dict allNames thr maxS ng.1
      processFound passNum maxS st ng (cacheUpdate st.cache ng.1 b) b
        st.cacheHits (st.matcherCalls + 1)

/-- Embedding of `process_pass`: build all n-grams, stable-sort them by
word count descending, then fold the per-n-gram step.  The returned
`PassState` carries the match list (the Python return value) together with
the final shared cache and the probe counters. -/
def process_pass (passNum : Nat) (tokens : List Token)
    (dict : String → List PlayerObj) (allNames : List String)
    (minGram maxGram : Nat) (thr : ℤ) (maxS : Nat) (cache : Cache) :
    PassState :=
  ((build_ngrams tokens minGram maxGram).insertionSort
      (fun a b => (splitWs b.1).length ≤ (splitWs a.1).length)).foldl
    (processStep passNum dict allNames thr maxS) ⟨[], [], cache, 0, 0⟩

/-! ### Knowledge base and rule-based condition checker (`src/eval.py`,
`src/knowledge.py`) -/

/-- One `club_history` entry `{club, from, to}` (`from`/`to` are Lean
keywords, hence `fromYear`/`toYear`). -/
structure ClubStint where
  club : String := ""
  fromYear : Option Int := none
  toYear : Option Int := none
deriving DecidableEq, Repr

/-- One `honors` entry `{type, club, season}` (`type` is a Lean keyword,
hence `htype`; a missing `type` key compares unequal to `"treble"` exactly
as the `""` default does). -/
structure Honor where
  htype : String := ""
  club : String := ""
  season : Option Int := none
deriving DecidableEq, Repr

/-- A knowledge-base `Player` record (`src/knowledge.py`). -/
structure Player where
  name : String
  nationality : Option String := none
  clubs : List String := []
  leagues : List String := []
  world_cup_years : List Int := []
  club_history : List ClubStint := []
  honors : List Honor := []
  aliases : List String := []
deriving DecidableEq, Repr

/-- Python `str(x)` for an optional int (`None` prints as `"None"`), used
in the justification detail strings. -/
def pyStrOptInt : Option Int → String
  | some y => toString y
  | none => "None"

/-- `KnowledgeBase.get`: the constructor fills a dict keyed by lowercased
name and aliases, later players overwriting earlier ones, so lookup is the
last player whose name or an alias matches case-insensitively. -/
def kbGet (players : List Player) (nm : String) : Option Player :=
  players.reverse.find? (fun p =>
    lowerStr p.name == lowerStr nm ||
    (p.aliases.map lowerStr).contains (lowerStr nm))

/-- First early `return` produced by a per-name loop, if any. -/
def firstErr (f : String → Option (Bool × String)) :
    List String → Option (Bool × String)
  | [] => none
  | n :: ns => match f n with | some r => some r | none => firstErr f ns

/-- The literal `"Question must include an 'all' constraint."` message
(spelled with explicit quote characters). -/
def sq : String := ⟨[Char.ofNat 39]⟩

/-- Reason string returned when the question lacks the `"all"` anchor. -/
def allConstraintMsg : String :=
  "Question must include an " ++ sq ++ "all" ++ sq ++ " constraint."

/-- Loop body of the `"played for"`/`"club"` branch of `eval.py`'s
checker, for the already-extracted club string. -/
def clubCheckF (kb : List Player) (club : String) (name : String) :
    Option (Bool × String) :=
  match kbGet kb name with
  | none => some (false, "Missing knowledge for " ++ name ++ ".")
  | some p =>
    if club ≠ "" ∧ lowerStr club ∉ p.clubs.map lowerStr then
      some (false, name ++ " did not play for " ++ club ++ ".")
    else none

/-- Embedding of `RuleBasedConditionChecker.check` from `src/eval.py`. -/
def checkRB (kb : List Player) (names : List String) (question : String) :
    Bool × String :=
  if names.isEmpty then (false, "No names extracted from transcript.")
  else
  let q := pyStripStr (lowerStr question)
  if ¬ strContains q ("all") then (false, allConstraintMsg)
  else if strContains q ("world cup") then
    match firstErr (fun name =>
        match kbGet kb name with
        | none => some (false, "Missing knowledge for " ++ name ++ ".")
        | some p =>
          if p.world_cup_years.isEmpty then
            some (false, name ++ " never played in a World Cup.")
          else none) names with
    | some r => r
    | none => (true, "All players have World Cup appearances.")
  else if strContains q ("treble") then
    let club : Option String :=
      if strContains q ("with") then
        some (stripStr ("?.! ").data (splitAfterFirst q ("with")))
      else none
    let clubStr := club.getD ""
    let clubTruthy := clubStr ≠ ""
    let matchingOf := fun (p : Player) => p.honors.filter (fun e =>
      e.htype = "treble" ∧ (¬ clubTruthy ∨ lowerStr e.club = lowerStr clubStr))
    match firstErr (fun name =>
        match kbGet kb name with
        | none => some (false, "Missing knowledge for " ++ name ++ ".")
        | some p =>
          if (matchingOf p).isEmpty then
            if clubTruthy then
              some (false, name ++ " did not win a treble with " ++ clubStr ++ ".")
            else some (false, name ++ " did not win a treble.")
          else none) names with
    | some r => r
    | none =>
      let details := names.filterMap (fun name =>
        match kbGet kb name with
        | none => none
        | some p => (p.honors.find? (fun e =>
            e.htype = "treble" ∧
              (¬ clubTruthy ∨ lowerStr e.club = lowerStr clubStr))).map
            (fun e => name ++ ": " ++ pyStrOptInt e.season))
      if clubTruthy then
        (true, "All players won a treble with " ++ clubStr ++ ". " ++
          String.intercalate ("; ") details)
      else
        (true, "All players won a treble. " ++ String.intercalate ("; ") details)
  else if strContains q ("played for") || strContains q ("club") then
    let club0 :=
      if strContains q ("played for") then
        pyStripStr (splitAfterFirst q ("played for"))
      else pyStripStr (splitAfterFirst q ("club"))
    let club := stripStr ("?.! ").data club0
    match firstErr (clubCheckF kb club) names with
    | some r => r
    | none =>
      let details := names.filterMap (fun name =>
        match kbGet kb name with
        | none => none
        | some p => (p.club_history.find? (fun e =>
            lowerStr e.club = lowerStr club)).map (fun e =>
              name ++ ": " ++ pyStrOptInt e.fromYear ++ " to " ++
                pyStrOptInt e.toYear))
      if ¬ details.isEmpty then
        (true, "All players played for " ++ club ++ ". " ++
          String.intercalate ("; ") details)
      else (true, "All players played for " ++ club ++ ".")
  else if strContains q ("national") || strContains q ("are") then
    match firstErr (fun name =>
        match kbGet kb name with
        | none => some (false, "Missing knowledge for " ++ name ++ ".")
        | some p =>
          let nationality := lowerStr (optStr p.nationality)
          if nationality ≠ "" ∧ strContains q nationality then none
          else if strContains q ("are") ∧ nationality ≠ "" ∧
              ¬ strContains q nationality then
            some (false, name ++ " is not " ++ nationality ++ ".")
          else none) names with
    | some r => r
    | none => (true, "All players match the nationality constraint.")
  else (false, "Rule-based checker does not support this question type.")

/-- Knowledge attributes used by the second rule-based checker in
`src/pipeline.py` (a dict of `{"nationality": ..., "clubs": [...]}`; an
empty attribute dict, which the source also treats as missing, is not
distinguishable in this typed model and does not occur in the claims). -/
structure PAttrs where
  nationality : String := ""
  clubs : List String := []
deriving DecidableEq, Repr

/-- Lookup in the pipeline checker's knowledge dict (keys lowercased at
construction, later entries overwriting earlier ones). -/
def pAttrsGet (knowledge : List (String × PAttrs)) (nm : String) :
    Option PAttrs :=
  (knowledge.reverse.find? (fun kv => lowerStr kv.1 == lowerStr nm)).map (·.2)

/-- Loop body of the club branch of `pipeline.py`'s checker. -/
def pClubCheckF (knowledge : List (String × PAttrs)) (club : String)
    (name : String) : Option (Bool × String) :=
  match pAttrsGet knowledge name with
  | none => some (false, "Missing knowledge for " ++ name ++ ".")
  | some attrs =>
    if club ≠ "" ∧ lowerStr club ∉ attrs.clubs.map lowerStr then
      some (false, name ++ " did not play for " ++ club ++ ".")
    else none

/-- Embedding of `RuleBasedConditionChecker.check` from `src/pipeline.py`.
Unlike the `eval.py` version it falls through to an unconditional positive
verdict when no recognized pattern fires. -/
def checkRBPipeline (knowledge : List (String × PAttrs))
    (names : List String) (question : String) : Bool × String :=
  if names.isEmpty then (false, "No names extracted from transcript.")
  else
  let q := pyStripStr (lowerStr question)
  if ¬ strContains q ("all") then (false, allConstraintMsg)
  else
    let natErr :=
      if strContains q ("national") || strContains q ("are") then
        firstErr (fun name =>
          match pAttrsGet knowledge name with
          | none => some (false, "Missing knowledge for " ++ name ++ ".")
          | some attrs =>
            let nationality := lowerStr attrs.nationality
            if nationality ≠ "" ∧ strContains q nationality then none
            else if strContains q ("are") ∧ nationality ≠ "" ∧
                ¬ strContains q nationality then
              some (false, name ++ " is not " ++ nationality ++ ".")
            else none) names
      else none
    match natErr with
    | some r => r
    | none =>
      let clubErr :=
        if strContains q ("played for") || strContains q ("club") then
          let club0 :=
            if strContains q ("played for") then
              pyStripStr (splitAfterFirst q ("played for"))
            else pyStripStr (splitAfterFirst q ("club"))
          let club := stripStr ("?.! ").data club0
          firstErr (pClubCheckF knowledge club) names
        else none
      match clubErr with
      | some r => r
      | none => (true, "All names satisfy the question based on knowledge.")

/-! ### Prompt/vocabulary selector (`scripts/asr_steps/common.py`) -/

/-- A knowledge entry as consumed by `score_player` /
`select_prompt_names`.  `load_knowledge` guarantees a truthy `name`;
`club_history` entries are dicts whose Python `str()` forms are carried as
opaque strings here. -/
structure KEntry where
  name : String := ""
  fame_score : ℚ := 0
  position : String := ""
  nationality : String := ""
  clubs : List String := []
  club_history : List String := []
  club : Option String := none
  current_club : Option String := none
  league : String := ""
  leagues : List String := []
deriving DecidableEq, Repr

/-- The club strings collected by `score_player` from the four club-ish
keys, in source order. -/
def clubsOf (p : KEntry) : List String :=
  (p.clubs.map lowerStr) ++ (p.club_history.map lowerStr) ++
    (match p.club with | some s => [lowerStr s] | none => []) ++
    (match p.current_club with | some s => [lowerStr s] | none => [])

/-- Embedding of `extract_phrase`. -/
def extract_phrase (question keyword : String) : Option String :=
  match splitTailChars keyword.data question.data with
  | none => none
  | some tail =>
    let t := stripCharsOf ((" ?.!,:;").data) tail
    if t.isEmpty then none else some ⟨t⟩

/-- Embedding of `score_player`: rule-based relevance score and fame proxy
of one knowledge entry against the question text. -/
def score_player (question : String) (p : KEntry) : ℤ × ℚ :=
  let q := lowerStr question
  let fame := p.fame_score
  let position := lowerStr p.position
  let nationality := lowerStr p.nationality
  let s1 : ℤ := if nationality ≠ "" ∧ strContains q nationality then 3 else 0
  let clubs := clubsOf p
  let club_phrase :=
    match extract_phrase q ("played for") with
    | some c => some c
    | none => extract_phrase q ("play for")
  let s2 : ℤ :=
    match club_phrase with
    | some cp => if clubs.any (fun c => strContains c cp) then 4 else 0
    | none => 0
  let league := lowerStr p.league
  let leagues := (p.leagues.filter (· ≠ "")).map lowerStr
  let league_targets : List String :=
    if strContains q ("english premier league") || strContains q ("premier league")
    then ["english premier league", "eng premier league", "premier league", "gb1"]
    else []
  let s3 : ℤ :=
    if league ≠ "" ∧ (strContains q league ||
        league_targets.any (fun t => strContains league t)) then 3 else 0
  let s4 : ℤ :=
    if leagues.any (fun l => strContains q l) ||
        leagues.any (fun l => league_targets.any (fun t => strContains l t))
    then 3 else 0
  let s5 : ℤ := if position ≠ "" ∧ strContains q position then 1 else 0
  let s6 : ℤ :=
    if [("goalkeeper" : String), "keeper"].any (fun k => strContains q k) then
      if strContains position ("goal") || position = "gk" then 2 else 0
    else 0
  let s7 : ℤ :=
    if [("defender" : String), "defence", "defense", "cb", "lb", "rb",
        "fullback", "full-back"].any (fun k => strContains q k) then
      if [("def" : String), "cb", "lb", "rb", "lwb", "rwb", "back"].any
          (fun k => strContains position k) then 5
      else if position ≠ "" then -1 else 0
    else 0
  let s8 : ℤ :=
    if [("midfielder" : String), "midfield", "cm", "dm", "am"].any
        (fun k => strContains q k) then
      if [("mid" : String), "cm", "dm", "am"].any
          (fun k => strContains position k) then 3
      else if position ≠ "" then -1 else 0
    else 0
  let s9 : ℤ :=
    if [("forward" : String), "striker", "winger", "attack"].any
        (fun k => strContains q k) then
      if [("for" : String), "wing", "att", "st"].any
          (fun k => strContains position k) then 3
      else if position ≠ "" then -1 else 0
    else 0
  (s1 + s2 + s3 + s4 + s5 + s6 + s7 + s8 + s9, fame)

/-- Lexicographic `≤` on `(score, fame, lowercased name)` triples,
spelled out explicitly (Python tuple comparison; kernel-computable). -/
def tripleLe (x y : ℤ × ℚ × String) : Prop :=
  x.1 < y.1 ∨ (x.1 = y.1 ∧
    (x.2.1 < y.2.1 ∨ (x.2.1 = y.2.1 ∧ pyStrLe x.2.2 y.2.2)))

instance : DecidableRel tripleLe := fun x y => by
  unfold tripleLe
  infer_instance

theorem tripleLe_total (x y : ℤ × ℚ × String) : tripleLe x y ∨ tripleLe y x := by
  unfold tripleLe
  rcases lt_trichotomy x.1 y.1 with h | h | h
  · exact Or.inl (Or.inl h)
  · rcases lt_trichotomy x.2.1 y.2.1 with h2 | h2 | h2
    · exact Or.inl (Or.inr ⟨h, Or.inl h2⟩)
    · rcases strLeB_total x.2.2.data y.2.2.data with h3 | h3
      · exact Or.inl (Or.inr ⟨h, Or.inr ⟨h2, h3⟩⟩)
      · exact Or.inr (Or.inr ⟨h.symm, Or.inr ⟨h2.symm, h3⟩⟩)
    · exact Or.inr (Or.inr ⟨h.symm, Or.inl h2⟩)
  · exact Or.inr (Or.inl h)

theorem tripleLe_trans {x y z : ℤ × ℚ × String} (h1 : tripleLe x y)
    (h2 : tripleLe y z) : tripleLe x z := by
  unfold tripleLe at h1 h2 ⊢
  rcases h1 with h1 | ⟨h1e, h1r⟩
  · rcases h2 with h2 | ⟨h2e, _⟩
    · exact Or.inl (h1.trans h2)
    · exact Or.inl (h2e ▸ h1)
  · rcases h2 with h2 | ⟨h2e, h2r⟩
    · exact Or.inl (h1e ▸ h2)
    · refine Or.inr ⟨h1e.trans h2e, ?_⟩
      rcases h1r with h1r | ⟨h1f, h1s⟩
      · rcases h2r with h2r | ⟨h2f, _⟩
        · exact Or.inl (h1r.trans h2r)
        · exact Or.inl (h2f ▸ h1r)
      · rcases h2r with h2r | ⟨h2f, h2s⟩
        · exact Or.inl (h1f ▸ h2r)
        · exact Or.inr ⟨h1f.trans h2f, strLeB_trans _ _ _ h1s h2s⟩

/-- Sort key of `select_prompt_names`:
`(score, fame, str(p.get("name", "")).lower())`. -/
def selKey (x : (ℤ × ℚ) × KEntry) : ℤ × ℚ × String :=
  (x.1.1, x.1.2, lowerStr x.2.name)

/-- The relation of the reversed stable sort in `select_prompt_names`. -/
def selLe (a b : (ℤ × ℚ) × KEntry) : Prop := tripleLe (selKey b) (selKey a)

instance : DecidableRel selLe := fun a b =>
  inferInstanceAs (Decidable (tripleLe (selKey b) (selKey a)))

instance selLeTotal : IsTotal ((ℤ × ℚ) × KEntry) selLe :=
  ⟨fun a b => tripleLe_total (selKey b) (selKey a)⟩

instance selLeTrans : IsTrans ((ℤ × ℚ) × KEntry) selLe :=
  ⟨fun _ _ _ h1 h2 => tripleLe_trans h2 h1⟩

/-- The fallback branch of `select_prompt_names` (no question/knowledge):
the names come from `load_known_names`, whose `list(set(...))` order is
Python-implementation-defined, so they enter as a parameter here; none of
the claims concern this branch. -/
def selectFallback (names : List String) (limit : Nat) (lastOnly : Bool) :
    List String :=
  let ns := if lastOnly then
      (names.filter (fun n => ¬ (splitWs n).isEmpty)).map
        (fun n => (splitWs n).getLastD (""))
    else names
  ns.take limit

/-- The question-and-knowledge branch of `select_prompt_names`. -/
def selectMain (q : String) (entries : List KEntry)
    (fallback_names : List String) (limit : Nat) (lastOnly : Bool) :
    List String :=
  if q = "" then selectFallback fallback_names limit lastOnly
  else
    let scored := entries.map (fun p => (score_player q p, p))
    let sortedL := scored.insertionSort selLe
    let filtered := (sortedL.filter (fun x : (ℤ × ℚ) × KEntry => 0 < x.1.1)).map (·.2)
    let names :=
      if filtered.isEmpty then
        (entries.filter (fun p => p.name ≠ "")).map (·.name)
      else (filtered.filter (fun p => p.name ≠ "")).map (·.name)
    let names' :=
      if lastOnly then
        (names.filter (fun n => ¬ (splitWs n).isEmpty)).map
          (fun n => (splitWs n).getLastD (""))
      else names
    names'.take limit

/-- Embedding of `select_prompt_names`. -/
def select_prompt_names (question : Option String)
    (knowledge : Option (List KEntry)) (fallback_names : List String)
    (limit : Nat) (lastOnly : Bool) : List String :=
  match question, knowledge with
  | some q, some entries => selectMain q entries fallback_names limit lastOnly
  | _, _ => selectFallback fallback_names limit lastOnly

/-! ### Claim C3: prompt/vocabulary selector -/

theorem orderedInsert_of_forall {α : Type _} (r : α → α → Prop)
    [DecidableRel r] (a : α) :
    ∀ l : List α, (∀ b ∈ l, r a b) → l.orderedInsert r a = a :: l
  | [], _ => rfl
  | b :: t, h => by
    unfold List.orderedInsert
    rw [if_pos (h b (by simp))]

theorem filter_orderedInsert {α : Type _} (r : α → α → Prop) [DecidableRel r]
    [IsTrans α r] (p : α → Bool) (a : α) :
    ∀ l : List α, l.Sorted r → (l.orderedInsert r a).filter p =
      if p a then (l.filter p).orderedInsert r a else l.filter p
  | [], _ => by
    cases hpa : p a <;> simp [List.orderedInsert, List.filter, hpa]
  | b :: t, hsort => by
    by_cases hab : r a b
    · rw [List.orderedInsert_of_le r t hab]
      cases hpa : p a with
      | true =>
        have hfront : ∀ c ∈ (b :: t).filter p, r a c := by
          intro c hc
          have hc2 := List.mem_of_mem_filter hc
          rcases List.mem_cons.mp hc2 with h | h
          · exact h ▸ hab
          · exact Trans.trans hab (List.rel_of_sorted_cons hsort c h)
        rw [orderedInsert_of_forall r a _ hfront, if_pos rfl]
        simp [List.filter, hpa]
      | false =>
        rw [if_neg (by simp [hpa])]
        simp [List.filter, hpa]
    · have hins : (b :: t).orderedInsert r a = b :: t.orderedInsert r a := by
        simp only [List.orderedInsert]
        rw [if_neg hab]
      rw [hins]
      have iht := filter_orderedInsert r p a t hsort.of_cons
      cases hpa : p a with
      | true =>
        rw [hpa] at iht
        rw [if_pos rfl]
        rw [if_pos rfl] at iht
        cases hpb : p b with
        | true =>
          have hfb : (b :: t).filter p = b :: t.filter p := by
            simp [List.filter, hpb]
          rw [hfb]
          have hob : (b :: t.filter p).orderedInsert r a =
              b :: (t.filter p).orderedInsert r a := by
            simp only [List.orderedInsert]
            rw [if_neg hab]
          rw [hob]
          simp only [List.filter, hpb, iht]
        | false =>
          have hfb : (b :: t).filter p = t.filter p := by
            simp [List.filter, hpb]
          rw [hfb]
          simp only [List.filter, hpb, iht]
      | false =>
        rw [hpa] at iht
        rw [if_neg (by simp)]
        rw [if_neg (by simp)] at iht
        cases hpb : p b with
        | true => simp [List.filter, hpb, iht]
        | false => simp [List.filter, hpb, iht]

theorem filter_insertionSort {α : Type _} (r : α → α → Prop) [DecidableRel r]
    [IsTotal α r] [IsTrans α r] (p : α → Bool) :
    ∀ l : List α, (l.insertionSort r).filter p = (l.filter p).insertionSort r
  | [] => rfl
  | a :: l => by
    show ((l.insertionSort r).orderedInsert r a).filter p = _
    rw [filter_orderedInsert r p a _ (List.sorted_insertionSort r l),
      filter_insertionSort r p l]
    cases hpa : p a with
    | true =>
      have : (a :: l).filter p = a :: l.filter p := by simp [List.filter, hpa]
      rw [if_pos rfl, this]
      rfl
    | false =>
      have : (a :: l).filter p = l.filter p := by simp [List.filter, hpa]
      rw [if_neg (by simp), this]

/-- The entry ordering of the spec sentence, recomputed per entry:
relevance score descending, then fame descending, then lowercased name
DESCENDING (the amended direction). -/
def specLe (q : String) (a b : KEntry) : Prop :=
  tripleLe ((score_player q b).1, (score_player q b).2, lowerStr b.name)
    ((score_player q a).1, (score_player q a).2, lowerStr a.name)

instance (q : String) : DecidableRel (specLe q) := fun a b => by
  unfold specLe
  infer_instance

/-- Specification-side recomposition of `select_prompt_names` (question and
knowledge present), following the amended spec words: keep positively
scored entries sorted by (score desc, fame desc, lowercased name desc),
fall back to the full candidate list in original order when none score
positively, drop entries without a truthy name, optionally reduce to last
whitespace tokens, truncate to `limit`. -/
def select_spec (q : String) (entries : List KEntry) (limit : Nat)
    (lastOnly : Bool) : List String :=
  let pos := entries.filter (fun p => 0 < (score_player q p).1)
  let base := if pos.isEmpty then entries else pos.insertionSort (specLe q)
  let names := (base.filter (fun p => p.name ≠ "")).map (·.name)
  let names2 :=
    if lastOnly then
      (names.filter (fun n => ¬ (splitWs n).isEmpty)).map
        (fun n => (splitWs n).getLastD (""))
    else names
  names2.take limit

/-- Refutation of claim C3 as stated: two entries with identical positive
relevance score and identical fame but names `"Alpha"`/`"Beta"` come back
as `["Beta", "Alpha"]` — name ordering is descending, not ascending (the
`reverse=True` sort reverses the whole key tuple, name included). -/
theorem c3_counterexample :
    select_prompt_names (some ("Are all of these france?"))
        (some [{ name := ("Alpha"), nationality := ("france") },
          { name := ("Beta"), nationality := ("france") }]) [] 10 false =
      [("Beta"), ("Alpha")] ∧
    score_player ("Are all of these france?")
        { name := ("Alpha"), nationality := ("france") } =
      score_player ("Are all of these france?")
        { name := ("Beta"), nationality := ("france") } := by
  refine ⟨by decide, by decide⟩

/-- Claim C3, amended (name tie-break descending instead of ascending):
with a question and knowledge both given (and the question non-empty),
`select_prompt_names` equals the specification-side recomposition
`select_spec`. -/
theorem c3_select_prompt_names (q : String) (entries : List KEntry)
    (fb : List String) (limit : Nat) (lastOnly : Bool) (hq : q ≠ "") :
    select_prompt_names (some q) (some entries) fb limit lastOnly =
      select_spec q entries limit lastOnly := by
  show selectMain q entries fb limit lastOnly = _
  unfold selectMain
  rw [if_neg hq]
  dsimp only
  have hmk : ∀ x ∈ entries.map (fun p => (score_player q p, p)),
      x.1 = score_player q x.2 := by
    intro x hx
    obtain ⟨p, _, hp⟩ := List.mem_map.mp hx
    rw [← hp]
  have hstep1 :
      ((entries.map (fun p => (score_player q p, p))).insertionSort
          selLe).filter (fun x : (ℤ × ℚ) × KEntry => 0 < x.1.1) =
        ((entries.map (fun p => (score_player q p, p))).filter
          (fun x : (ℤ × ℚ) × KEntry => 0 < x.1.1)).insertionSort selLe :=
    filter_insertionSort selLe _ _
  have hstep3 :
      (entries.map (fun p => (score_player q p, p))).filter
          (fun x : (ℤ × ℚ) × KEntry => 0 < x.1.1) =
        (entries.filter (fun p => 0 < (score_player q p).1)).map
          (fun p => (score_player q p, p)) := by
    rw [List.filter_map]
    rfl
  have hstep2 :
      (((entries.filter (fun p => 0 < (score_player q p).1)).map
          (fun p => (score_player q p, p))).insertionSort selLe).map (·.2) =
        (((entries.filter (fun p => 0 < (score_player q p).1)).map
          (fun p => (score_player q p, p))).map (·.2)).insertionSort
            (specLe q) := by
    apply List.map_insertionSort
    intro a ha b hb
    obtain ⟨pa, _, hpa⟩ := List.mem_map.mp ha
    obtain ⟨pb, _, hpb⟩ := List.mem_map.mp hb
    subst hpa
    subst hpb
    exact Iff.rfl
  have hcomp : (((entries.filter (fun p => 0 < (score_player q p).1)).map
      (fun p => (score_player q p, p))).map (·.2)) =
        entries.filter (fun p => 0 < (score_player q p).1) := by
    rw [List.map_map]
    exact List.map_id _
  rw [hstep1, hstep3, hstep2, hcomp]
  unfold select_spec
  dsimp only
  by_cases hpos :
      entries.filter (fun p : KEntry => 0 < (score_player q p).1) = []
  · rw [hpos]
    simp [List.insertionSort]
  · have hlen : (List.insertionSort (specLe q)
        (entries.filter (fun p : KEntry => 0 < (score_player q p).1))).length =
          (entries.filter (fun p : KEntry => 0 < (score_player q p).1)).length :=
      List.length_insertionSort _ _
    have h1 : (List.insertionSort (specLe q)
        (entries.filter
          (fun p : KEntry => 0 < (score_player q p).1))).isEmpty = false := by
      cases hs : List.insertionSort (specLe q)
          (entries.filter (fun p : KEntry => 0 < (score_player q p).1)) with
      | nil =>
        rw [hs] at hlen
        exact absurd (List.length_eq_zero.mp hlen.symm) hpos
      | cons a t => rfl
    have h2 : (entries.filter
        (fun p : KEntry => 0 < (score_player q p).1)).isEmpty = false := by
      cases hs : entries.filter
          (fun p : KEntry => 0 < (score_player q p).1) with
      | nil => exact absurd hs hpos
      | cons a t => rfl
    rw [h1, h2]
    simp only [Bool.false_eq_true, if_false]

/-- Witness for the amended claim C3: concrete application with the
non-empty-question hypothesis discharged. -/
theorem c3_select_prompt_names_witness :
    (("Are all of these france?") : String) ≠ ("") ∧
    select_prompt_names (some ("Are all of these france?"))
        (some [{ name := ("Alpha"), nationality := ("france") },
          { name := ("Beta"), nationality := ("france") }]) [] 10 false =
      select_spec ("Are all of these france?")
        [{ name := ("Alpha"), nationality := ("france") },
          { name := ("Beta"), nationality := ("france") }] 10 false :=
  ⟨by decide,
    c3_select_prompt_names ("Are all of these france?")
      [{ name := ("Alpha"), nationality := ("france") },
        { name := ("Beta"), nationality := ("france") }] [] 10 false
      (by decide)⟩

/-! ### Claim C2: rule-based condition checker -/

theorem substrChars_iff (n : List Char) :
    ∀ h : List Char, substrChars n h = true ↔ n <:+: h
  | [] => by
    simp only [substrChars, List.isEmpty_iff]
    constructor
    · intro h; subst h; exact List.nil_infix
    · intro h
      exact List.eq_nil_of_infix_nil h
  | c :: t => by
    simp only [substrChars, Bool.or_eq_true, List.isPrefixOf_iff_prefix,
      substrChars_iff n t, List.infix_cons_iff]

theorem pyStrip_within (cs : List Char) : pyStrip cs <:+: cs := by
  obtain ⟨pre, hpre⟩ :=
    @List.dropWhile_suffix _ (cs.dropWhile isPySpace).reverse isPySpace
  have hyz : cs.dropWhile isPySpace = pyStrip cs ++ pre.reverse := by
    have hrev := congrArg List.reverse hpre
    rw [List.reverse_append, List.reverse_reverse] at hrev
    rw [pyStrip]
    exact hrev.symm
  exact (List.IsPrefix.isInfix ⟨pre.reverse, hyz.symm⟩).trans
    (List.dropWhile_suffix isPySpace).isInfix

theorem strContains_pyStrip {x : List Char} {n : String}
    (h : substrChars n.data (pyStrip x) = true) :
    substrChars n.data x = true :=
  (substrChars_iff n.data x).mpr
    (((substrChars_iff n.data (pyStrip x)).mp h).trans (pyStrip_within x))

theorem firstErr_none (f : String → Option (Bool × String)) :
    ∀ names, (∀ nm ∈ names, f nm = none) → firstErr f names = none
  | [], _ => rfl
  | n :: ns, h => by
    unfold firstErr
    rw [h n (by simp)]
    exact firstErr_none f ns (fun nm hnm => h nm (by simp [hnm]))

theorem firstErr_app (f : String → Option (Bool × String)) :
    ∀ (pre : List String) (bad : String) (post : List String)
      (r : Bool × String), (∀ nm ∈ pre, f nm = none) → f bad = some r →
      firstErr f (pre ++ bad :: post) = some r
  | [], bad, post, r, _, hbad => by
    rw [List.nil_append]
    unfold firstErr
    rw [hbad]
  | n :: pre, bad, post, r, hpre, hbad => by
    rw [List.cons_append]
    unfold firstErr
    rw [hpre n (by simp)]
    exact firstErr_app f pre bad post r (fun nm hnm => hpre nm (by simp [hnm]))
      hbad

/-- Refutation of claim C2 as stated.  For the literal question `"Did all
of these play for Barcelona?"` (which contains `"play for"`, not
`"played for"`, and no other recognized keyword): the `eval.py` checker
returns a negative unsupported-question verdict even when every player's
clubs contain `"Barcelona"`; the `pipeline.py` checker returns an
unconditional positive verdict even when a player lacks `"Barcelona"`; and
a question whose literal text lacks `"all"` but whose lowercased text
contains it (`"ALL"`) is not rejected with the constraint-missing reason. -/
theorem c2_counterexample :
    checkRB [{ name := ("Pedri"), clubs := [("Barcelona")] }] [("Pedri")]
        ("Did all of these play for Barcelona?") =
      (false, "Rule-based checker does not support this question type.") ∧
    checkRBPipeline [(("modric"), { clubs := [("Real Madrid")] })]
        [("Modric")] ("Did all of these play for Barcelona?") =
      (true, "All names satisfy the question based on knowledge.") ∧
    checkRB [{ name := ("Pedri"), clubs := [("Barcelona")] }] [("Pedri")]
        ("Did ALL of these play for Barcelona?") =
      (false, "Rule-based checker does not support this question type.") := by
  refine ⟨by decide, by decide, by decide⟩

/-- Claim C2, amended: with the question `"Have all of these played for
Barcelona?"` (containing the recognized keyword `"played for"`), both
rule-based checkers return a positive verdict when every name resolves to
a player whose clubs contain `"Barcelona"`, and a negative verdict naming
the first player whose clubs lack it; and for every non-empty name list
and question whose lowercased text does not contain `"all"`, both return
the negative constraint-missing verdict. -/
theorem c2_condition_checker :
    (∀ (kb : List Player) (names : List String), names ≠ [] →
      (∀ nm ∈ names, ∃ p, kbGet kb nm = some p ∧ ("Barcelona") ∈ p.clubs) →
      (checkRB kb names ("Have all of these played for Barcelona?")).1 =
        true) ∧
    (∀ (kb : List Player) (pre post : List String) (bad : String)
        (pbad : Player),
      (∀ nm ∈ pre, ∃ p, kbGet kb nm = some p ∧ ("Barcelona") ∈ p.clubs) →
      kbGet kb bad = some pbad →
      ("barcelona") ∉ pbad.clubs.map lowerStr →
      checkRB kb (pre ++ bad :: post)
          ("Have all of these played for Barcelona?") =
        (false, bad ++ (" did not play for barcelona."))) ∧
    (∀ (kb : List Player) (names : List String) (question : String),
      names ≠ [] → strContains (lowerStr question) ("all") = false →
      checkRB kb names question = (false, allConstraintMsg)) ∧
    (∀ (knowledge : List (String × PAttrs)) (names : List String),
      names ≠ [] →
      (∀ nm ∈ names, ∃ a, pAttrsGet knowledge nm = some a ∧
        ("Barcelona") ∈ a.clubs) →
      (checkRBPipeline knowledge names
        ("Have all of these played for Barcelona?")).1 = true) ∧
    (∀ (knowledge : List (String × PAttrs)) (pre post : List String)
        (bad : String) (abad : PAttrs),
      (∀ nm ∈ pre, ∃ a, pAttrsGet knowledge nm = some a ∧
        ("Barcelona") ∈ a.clubs) →
      pAttrsGet knowledge bad = some abad →
      ("barcelona") ∉ abad.clubs.map lowerStr →
      checkRBPipeline knowledge (pre ++ bad :: post)
          ("Have all of these played for Barcelona?") =
        (false, bad ++ (" did not play for barcelona."))) ∧
    (∀ (knowledge : List (String × PAttrs)) (names : List String)
        (question : String),
      names ≠ [] → strContains (lowerStr question) ("all") = false →
      checkRBPipeline knowledge names question = (false, allConstraintMsg)) := by
  have hclub : stripStr (("?.! ").data) (pyStripStr (splitAfterFirst
      (pyStripStr (lowerStr ("Have all of these played for Barcelona?")))
      ("played for"))) = ("barcelona") := by decide
  have hmsg : ∀ bad : String,
      bad ++ (" did not play for ") ++ ("barcelona") ++ (".") =
        bad ++ (" did not play for barcelona.") := by
    intro bad
    rw [String.append_assoc, String.append_assoc]
    rfl
  have hCgood : ∀ (kb : List Player) (nm : String) (p : Player),
      kbGet kb nm = some p → ("Barcelona") ∈ p.clubs →
      clubCheckF kb ("barcelona") nm = none := by
    intro kb nm p hp hbar
    unfold clubCheckF
    rw [hp]
    have hmem : lowerStr ("barcelona") ∈ p.clubs.map lowerStr := by
      rw [show lowerStr ("barcelona") = ("barcelona") from by decide]
      exact List.mem_map.mpr ⟨("Barcelona"), hbar, by decide⟩
    exact if_neg (fun h => h.2 hmem)
  have hCbad : ∀ (kb : List Player) (nm : String) (p : Player),
      kbGet kb nm = some p → ("barcelona") ∉ p.clubs.map lowerStr →
      clubCheckF kb ("barcelona") nm =
        some (false, nm ++ (" did not play for ") ++ ("barcelona") ++ (".")) := by
    intro kb nm p hp hnb
    unfold clubCheckF
    rw [hp]
    refine if_pos ⟨by decide, ?_⟩
    rw [show lowerStr ("barcelona") = ("barcelona") from by decide]
    exact hnb
  have hPgood : ∀ (knowledge : List (String × PAttrs)) (nm : String)
      (a : PAttrs), pAttrsGet knowledge nm = some a → ("Barcelona") ∈ a.clubs →
      pClubCheckF knowledge ("barcelona") nm = none := by
    intro knowledge nm a hp hbar
    unfold pClubCheckF
    rw [hp]
    have hmem : lowerStr ("barcelona") ∈ a.clubs.map lowerStr := by
      rw [show lowerStr ("barcelona") = ("barcelona") from by decide]
      exact List.mem_map.mpr ⟨("Barcelona"), hbar, by decide⟩
    exact if_neg (fun h => h.2 hmem)
  have hPbad : ∀ (knowledge : List (String × PAttrs)) (nm : String)
      (a : PAttrs), pAttrsGet knowledge nm = some a →
      ("barcelona") ∉ a.clubs.map lowerStr →
      pClubCheckF knowledge ("barcelona") nm =
        some (false, nm ++ (" did not play for ") ++ ("barcelona") ++ (".")) := by
    intro knowledge nm a hp hnb
    unfold pClubCheckF
    rw [hp]
    refine if_pos ⟨by decide, ?_⟩
    rw [show lowerStr ("barcelona") = ("barcelona") from by decide]
    exact hnb
  refine ⟨?_, ?_, ?_, ?_, ?_, ?_⟩
  · intro kb names hne hall
    have hni : names.isEmpty = false := by
      cases names with
      | nil => exact absurd rfl hne
      | cons a t => rfl
    unfold checkRB
    simp only [hni, Bool.false_eq_true, if_false, Bool.true_or,
      show strContains (pyStripStr (lowerStr ("Have all of these played for Barcelona?"))) ("all") = true from by decide,
      show strContains (pyStripStr (lowerStr ("Have all of these played for Barcelona?"))) ("world cup") = false from by decide,
      show strContains (pyStripStr (lowerStr ("Have all of these played for Barcelona?"))) ("treble") = false from by decide,
      show strContains (pyStripStr (lowerStr ("Have all of these played for Barcelona?"))) ("played for") = true from by decide,
      hclub, not_true, if_true, Bool.true_eq_false, ite_false, ite_true,
      not_false_iff]
    rw [firstErr_none (clubCheckF kb ("barcelona")) names
      (fun nm hnm => by
        obtain ⟨p, hp, hbar⟩ := hall nm hnm
        exact hCgood kb nm p hp hbar)]
    split
    · next r heq => exact Option.noConfusion heq
    · split <;> rfl
  · intro kb pre post bad pbad hpre hbad hnb
    have hni : (pre ++ bad :: post).isEmpty = false := by
      cases pre with
      | nil => rfl
      | cons a t => rfl
    unfold checkRB
    simp only [hni, Bool.false_eq_true, if_false, Bool.true_or,
      show strContains (pyStripStr (lowerStr ("Have all of these played for Barcelona?"))) ("all") = true from by decide,
      show strContains (pyStripStr (lowerStr ("Have all of these played for Barcelona?"))) ("world cup") = false from by decide,
      show strContains (pyStripStr (lowerStr ("Have all of these played for Barcelona?"))) ("treble") = false from by decide,
      show strContains (pyStripStr (lowerStr ("Have all of these played for Barcelona?"))) ("played for") = true from by decide,
      hclub, not_true, if_true, Bool.true_eq_false, ite_false, ite_true,
      not_false_iff]
    rw [firstErr_app (clubCheckF kb ("barcelona")) pre bad post
      (false, bad ++ (" did not play for ") ++ ("barcelona") ++ ("."))
      (fun nm hnm => by
        obtain ⟨p, hp, hbar⟩ := hpre nm hnm
        exact hCgood kb nm p hp hbar)
      (hCbad kb bad pbad hbad hnb)]
    rw [hmsg bad]
  · intro kb names question hne hnc
    have hni : names.isEmpty = false := by
      cases names with
      | nil => exact absurd rfl hne
      | cons a t => rfl
    have hns : strContains (pyStripStr (lowerStr question)) ("all") = false := by
      cases hsc : strContains (pyStripStr (lowerStr question)) ("all") with
      | false => rfl
      | true =>
        unfold strContains at hnc
        have hsc2 : substrChars (("all") : String).data
            (pyStrip (lowerStr question).data) = true := hsc
        rw [strContains_pyStrip hsc2] at hnc
        exact Bool.noConfusion hnc
    unfold checkRB
    simp only [hni, Bool.false_eq_true, if_false, hns, not_false_iff, if_true]
  · intro knowledge names hne hall
    have hni : names.isEmpty = false := by
      cases names with
      | nil => exact absurd rfl hne
      | cons a t => rfl
    unfold checkRBPipeline
    simp only [hni, Bool.false_eq_true, if_false, Bool.true_or, Bool.false_or,
      show strContains (pyStripStr (lowerStr ("Have all of these played for Barcelona?"))) ("all") = true from by decide,
      show strContains (pyStripStr (lowerStr ("Have all of these played for Barcelona?"))) ("national") = false from by decide,
      show strContains (pyStripStr (lowerStr ("Have all of these played for Barcelona?"))) ("are") = false from by decide,
      show strContains (pyStripStr (lowerStr ("Have all of these played for Barcelona?"))) ("played for") = true from by decide,
      hclub, not_true, if_true, Bool.true_eq_false, ite_false, ite_true,
      not_false_iff, Bool.or_self]
    rw [firstErr_none (pClubCheckF knowledge ("barcelona")) names
      (fun nm hnm => by
        obtain ⟨a, hp, hbar⟩ := hall nm hnm
        exact hPgood knowledge nm a hp hbar)]
  · intro knowledge pre post bad abad hpre hbad hnb
    have hni : (pre ++ bad :: post).isEmpty = false := by
      cases pre with
      | nil => rfl
      | cons a t => rfl
    unfold checkRBPipeline
    simp only [hni, Bool.false_eq_true, if_false, Bool.true_or, Bool.false_or,
      show strContains (pyStripStr (lowerStr ("Have all of these played for Barcelona?"))) ("all") = true from by decide,
      show strContains (pyStripStr (lowerStr ("Have all of these played for Barcelona?"))) ("national") = false from by decide,
      show strContains (pyStripStr (lowerStr ("Have all of these played for Barcelona?"))) ("are") = false from by decide,
      show strContains (pyStripStr (lowerStr ("Have all of these played for Barcelona?"))) ("played for") = true from by decide,
      hclub, not_true, if_true, Bool.true_eq_false, ite_false, ite_true,
      not_false_iff, Bool.or_self]
    rw [firstErr_app (pClubCheckF knowledge ("barcelona")) pre bad post
      (false, bad ++ (" did not play for ") ++ ("barcelona") ++ ("."))
      (fun nm hnm => by
        obtain ⟨a, hp, hbar⟩ := hpre nm hnm
        exact hPgood knowledge nm a hp hbar)
      (hPbad knowledge bad abad hbad hnb)]
    rw [hmsg bad]
  · intro knowledge names question hne hnc
    have hni : names.isEmpty = false := by
      cases names with
      | nil => exact absurd rfl hne
      | cons a t => rfl
    have hns : strContains (pyStripStr (lowerStr question)) ("all") = false := by
      cases hsc : strContains (pyStripStr (lowerStr question)) ("all") with
      | false => rfl
      | true =>
        unfold strContains at hnc
        have hsc2 : substrChars (("all") : String).data
            (pyStrip (lowerStr question).data) = true := hsc
        rw [strContains_pyStrip hsc2] at hnc
        exact Bool.noConfusion hnc
    unfold checkRBPipeline
    simp only [hni, Bool.false_eq_true, if_false, hns, not_false_iff, if_true]


/-- Knowledge-base players for the C2 witness. -/
def pedriP : Player := { name := ("Pedri"), clubs := [("Barcelona")] }

/-- A player without Barcelona, for the C2 witness. -/
def modricP : Player := { name := ("Modric"), clubs := [("Real Madrid")] }

/-- Witness for C2's amended theorem, instantiating all six conjuncts on
concrete knowledge bases and name lists. -/
theorem c2_condition_checker_witness :
    (checkRB [pedriP] [("Pedri")]
      ("Have all of these played for Barcelona?")).1 = true ∧
    checkRB [pedriP, modricP] [("Pedri"), ("Modric")]
        ("Have all of these played for Barcelona?") =
      (false, ("Modric") ++ (" did not play for barcelona.")) ∧
    checkRB [pedriP] [("Pedri")] ("Who is this?") = (false, allConstraintMsg) ∧
    (checkRBPipeline [(("pedri"), { clubs := [("Barcelona")] })] [("Pedri")]
      ("Have all of these played for Barcelona?")).1 = true ∧
    checkRBPipeline
        [(("pedri"), { clubs := [("Barcelona")] }),
         (("modric"), { clubs := [("Real Madrid")] })]
        [("Pedri"), ("Modric")]
        ("Have all of these played for Barcelona?") =
      (false, ("Modric") ++ (" did not play for barcelona.")) ∧
    checkRBPipeline [(("pedri"), { clubs := [("Barcelona")] })] [("Pedri")]
      ("Who is this?") = (false, allConstraintMsg) :=
  ⟨c2_condition_checker.1 [pedriP] [("Pedri")] (by decide)
      (fun nm hnm => by
        rw [List.mem_singleton] at hnm
        subst hnm
        exact ⟨pedriP, by decide, by decide⟩),
   c2_condition_checker.2.1 [pedriP, modricP] [("Pedri")] [] ("Modric")
      modricP
      (fun nm hnm => by
        rw [List.mem_singleton] at hnm
        subst hnm
        exact ⟨pedriP, by decide, by decide⟩)
      (by decide) (by decide),
   c2_condition_checker.2.2.1 [pedriP] [("Pedri")] ("Who is this?")
      (by decide) (by decide),
   c2_condition_checker.2.2.2.1 [(("pedri"), { clubs := [("Barcelona")] })]
      [("Pedri")] (by decide)
      (fun nm hnm => by
        rw [List.mem_singleton] at hnm
        subst hnm
        exact ⟨{ clubs := [("Barcelona")] }, by decide, by decide⟩),
   c2_condition_checker.2.2.2.2.1
      [(("pedri"), { clubs := [("Barcelona")] }),
       (("modric"), { clubs := [("Real Madrid")] })]
      [("Pedri")] [] ("Modric") { clubs := [("Real Madrid")] }
      (fun nm hnm => by
        rw [List.mem_singleton] at hnm
        subst hnm
        exact ⟨{ clubs := [("Barcelona")] }, by decide, by decide⟩)
      (by decide) (by decide),
   c2_condition_checker.2.2.2.2.2 [(("pedri"), { clubs := [("Barcelona")] })]
      [("Pedri")] ("Who is this?") (by decide) (by decide)⟩

/-! ### Claim C7: n-gram generation -/

/-- The example token list of §8. -/
def kylianToks : List Token :=
  [{ token := "kylian" }, { token := "mbappe" }, { token := "scored" }]

/-- Claim C7: `build_ngrams` on `["kylian", "mbappe", "scored"]` with
`min_n = 1`, `max_n = 2` yields exactly the five n-grams with their index
spans; in general membership in the output is characterized by: one n-gram
per window size `n ∈ [min_n, max_n]` and start position with a full window,
whose text joins the normalized tokens with single `" "` separators (and a
final strip), windows with empty joined text being omitted. -/
theorem c7_build_ngrams :
    build_ngrams kylianToks 1 2 =
      [(("kylian"), 0, 0, [{ token := "kylian" }]),
       (("mbappe"), 1, 1, [{ token := "mbappe" }]),
       (("scored"), 2, 2, [{ token := "scored" }]),
       (("kylian mbappe"), 0, 1, [{ token := "kylian" }, { token := "mbappe" }]),
       (("mbappe scored"), 1, 2, [{ token := "mbappe" }, { token := "scored" }])] ∧
    ∀ (tokens : List Token) (mn mx : Nat) (t : String) (s e : Nat)
      (sl : List Token),
      ((t, s, e, sl) ∈ build_ngrams tokens mn mx ↔
        ∃ n, mn ≤ n ∧ n ≤ mx ∧ s + n ≤ tokens.length ∧
          sl = (tokens.drop s).take n ∧
          t = pyStripStr (String.intercalate (" ")
            (sl.map (fun tk => normalize tk.token))) ∧
          t ≠ "" ∧ e = s + n - 1) := by
  constructor
  · decide
  · intro tokens mn mx t s e sl
    simp only [build_ngrams, List.mem_flatMap, List.mem_filterMap,
      List.mem_range'_1, List.mem_range]
    constructor
    · rintro ⟨n, hn, i, hi, hg⟩
      split at hg
      · exact absurd hg (by simp)
      · next hch =>
        rw [Option.some.injEq, Prod.mk.injEq, Prod.mk.injEq, Prod.mk.injEq] at hg
        obtain ⟨rfl, rfl, rfl, rfl⟩ := hg
        exact ⟨n, hn.1, by omega, by omega, rfl, rfl, hch, rfl⟩
    · rintro ⟨n, h1, h2, h3, rfl, rfl, hne, rfl⟩
      refine ⟨n, ⟨h1, by omega⟩, s, by omega, ?_⟩
      rw [if_neg hne]

/-- Witness for the general conjunct of C7, instantiated on the bigram
`"kylian mbappe"`. -/
theorem c7_build_ngrams_witness :
    (("kylian mbappe"), 0, 1,
      [({ token := "kylian" } : Token), { token := "mbappe" }]) ∈
      build_ngrams kylianToks 1 2 :=
  (c7_build_ngrams.2 kylianToks 1 2 _ 0 1 _).mpr
    ⟨2, by decide, by decide, by decide, by decide, by decide, by decide,
      by decide⟩

/-! ### Claim C4: fuzzy matching -/

/-- Refutation of claim C4 as stated: with the in-repo fallback scorer (the
only string-similarity code in this repository; the `rapidfuzz`/`thefuzz`
branches call external libraries), the query `"naymar"` against dictionary
key `"neymar"` yields NO suggestion at threshold 70, because the
one-character-difference rule applies only to equal-length strings of
length at most 5 and these have length 6. -/
theorem c4_counterexample :
    fuzzy_match ("naymar") [("neymar")] 5 70 = [] := by decide

/-- Claim C4, amended: under the in-repo fallback scorer, `"naymar"` vs
key `"neymar"` yields no suggestion at threshold 70 and none at 95; the
fallback branch never compares scores against the threshold, so it can
emit a suggestion whose score is below the configured threshold (query
`"ney"` at threshold 95 still yields `("neymar", 85)`); every score it
emits is one of 100, 85, 75. -/
theorem c4_fuzzy_fallback :
    fuzzy_match ("naymar") [("neymar")] 5 70 = [] ∧
    fuzzy_match ("naymar") [("neymar")] 5 95 = [] ∧
    fuzzy_match ("ney") [("neymar")] 10 95 = [(("neymar"), 85)] ∧
    ∀ (query : String) (choices : List String) (limit : Nat) (thr : ℤ)
      (pr : String × ℤ), pr ∈ fuzzy_match query choices limit thr →
        pr.2 = 100 ∨ pr.2 = 85 ∨ pr.2 = 75 := by
  refine ⟨by decide, by decide, by decide, ?_⟩
  intro query choices limit thr pr hpr
  unfold fuzzy_match at hpr
  split at hpr
  · simp at hpr
  · have h1 : pr ∈ (choices.filterMap (fun choice =>
        if lowerStr query = choice then some (choice, (100 : ℤ))
        else if strContains choice (lowerStr query) ||
            strContains (lowerStr query) choice then some (choice, 85)
        else if (lowerStr query).length = choice.length ∧
            (lowerStr query).length ≤ 5 ∧
            hammingDiff (lowerStr query).data choice.data = 1 then
          some (choice, 75)
        else none)).insertionSort (fun a b => -a.2 ≤ -b.2) :=
      List.take_subset _ _ hpr
    rw [List.mem_insertionSort] at h1
    rw [List.mem_filterMap] at h1
    obtain ⟨choice, _, hg⟩ := h1
    split at hg
    · simp only [Option.some.injEq] at hg; subst hg; left; rfl
    · split at hg
      · simp only [Option.some.injEq] at hg; subst hg; right; left; rfl
      · split at hg
        · simp only [Option.some.injEq] at hg; subst hg; right; right; rfl
        · exact absurd hg (by simp)

/-- Witness for the universally quantified conjunct of C4's amended
theorem: the suggestion `("neymar", 85)` emitted at threshold 95 has one of
the fallback scores. -/
theorem c4_fuzzy_fallback_witness :
    ((("neymar"), (85 : ℤ)) ∈ fuzzy_match ("ney") [("neymar")] 10 95) ∧
      ((85 : ℤ) = 100 ∨ (85 : ℤ) = 85 ∨ (85 : ℤ) = 75) :=
  ⟨by decide, c4_fuzzy_fallback.2.2.2 ("ney") [("neymar")] 10 95
    (("neymar"), 85) (by decide)⟩

/-! ### Shared machinery for the `process_pass` claims -/

theorem foldl_induction {σ α : Type _} (f : σ → α → σ) (P : σ → Prop) :
    ∀ (l : List α) (s : σ), P s → (∀ s x, x ∈ l → P s → P (f s x)) →
      P (l.foldl f s)
  | [], s, hs, _ => hs
  | x :: l, s, hs, hstep =>
    foldl_induction f P l (f s x) (hstep s x (by simp) hs)
      (fun s' y hy => hstep s' y (by simp [hy]))

theorem sortSuggs_sorted (l : List Suggestion) :
    (sortSuggs l).Pairwise suggLe :=
  List.sorted_insertionSort suggLe l

theorem sortSuggs_perm (l : List Suggestion) : List.Perm (sortSuggs l) l :=
  List.perm_insertionSort suggLe l

theorem sortSuggs_idem (l : List Suggestion) :
    sortSuggs (sortSuggs l) = sortSuggs l :=
  List.Sorted.insertionSort_eq (List.sorted_insertionSort suggLe l)

theorem sortSuggs_isEmpty (l : List Suggestion) :
    (sortSuggs l).isEmpty = l.isEmpty := by
  have hlen : (sortSuggs l).length = l.length := (sortSuggs_perm l).length_eq
  by_cases h : l = []
  · subst h; rfl
  · have h2 : sortSuggs l ≠ [] := by
      intro hc
      rw [hc] at hlen
      exact h (List.length_eq_zero.mp hlen.symm)
    have hsl : (sortSuggs l).isEmpty = false := by
      cases hS : sortSuggs l with
      | nil => exact absurd hS h2
      | cons b u => rfl
    have hll : l.isEmpty = false := by
      cases hL : l with
      | nil => exact absurd hL h
      | cons a t => rfl
    rw [hsl, hll]

/-! ### Claim C9: per-record suggestion ordering invariant -/

/-- Claim C9: every `MatchRecord` returned by `process_pass` (for any
token list, dictionary, parameters and incoming shared cache) has its
suggestion list sorted by match score descending with career score
descending as tie-break (the relation `suggLe`), and contains at most
`max_suggestions` entries. -/
theorem c9_suggestions_sorted (passNum : Nat) (tokens : List Token)
    (dict : String → List PlayerObj) (allNames : List String)
    (minGram maxGram : Nat) (thr : ℤ) (maxS : Nat) (cache : Cache) :
    ∀ rec ∈ (process_pass passNum tokens dict allNames minGram maxGram thr
        maxS cache).matchList,
      rec.suggestions.Pairwise suggLe ∧ rec.suggestions.length ≤ maxS := by
  unfold process_pass
  refine foldl_induction (processStep passNum dict allNames thr maxS)
    (fun st => ∀ rec ∈ st.matchList,
      rec.suggestions.Pairwise suggLe ∧ rec.suggestions.length ≤ maxS)
    _ _ ?_ ?_
  · intro rec h
    simp at h
  · intro st ng _ hP
    unfold processStep
    split
    · exact hP
    · have hfound : ∀ (c1 : Cache) (suggs : List Suggestion) (hits calls : Nat),
          ∀ rec ∈ (processFound passNum maxS st ng c1 suggs hits
              calls).matchList,
            rec.suggestions.Pairwise suggLe ∧
              rec.suggestions.length ≤ maxS := by
        intro c1 suggs hits calls rec hrec
        unfold processFound at hrec
        split at hrec
        · exact hP rec hrec
        · simp only [List.mem_append, List.mem_singleton] at hrec
          rcases hrec with h | h
          · exact hP rec h
          · subst h
            refine ⟨?_, ?_⟩ <;> simp only [mkRecord]
            · exact (sortSuggs_sorted suggs).sublist (List.take_sublist _ _)
            · rw [List.length_take]
              exact min_le_left _ _
      cases hc : st.cache ng.1 with
      | some v => exact hfound st.cache v (st.cacheHits + 1) st.matcherCalls
      | none => exact hfound _ _ st.cacheHits (st.matcherCalls + 1)

/-- The §8 example record `{"name": "Lionel Messi", "club": "Paris
Saint-Germain"}`. -/
def messiRec : PlayerObj :=
  { name := some ("Lionel Messi"), club := some ("Paris Saint-Germain") }

/-- The dictionary loaded from the Messi record.  Its career score does not
involve `minutes_played`, so the abstracted `log10` parameter is irrelevant
and instantiated with the zero function. -/
def messiDict : (String → List PlayerObj) × List String :=
  load_players (fun _ => 0) [messiRec]

/-- Tokens whose single bigram is `"lionel messi"`. -/
def messiToks : List Token := [{ token := "Lionel" }, { token := "Messi" }]

/-- The empty shared cache. -/
def emptyCache : Cache := fun _ => none

/-- Witness for C9 on the concrete Messi run. -/
theorem c9_suggestions_sorted_witness :
    (((process_pass 1 messiToks messiDict.1 messiDict.2 2 2 70 5
        emptyCache).matchList.headD default) ∈
      (process_pass 1 messiToks messiDict.1 messiDict.2 2 2 70 5
        emptyCache).matchList) ∧
    (((process_pass 1 messiToks messiDict.1 messiDict.2 2 2 70 5
        emptyCache).matchList.headD default).suggestions.Pairwise suggLe ∧
      ((process_pass 1 messiToks messiDict.1 messiDict.2 2 2 70 5
        emptyCache).matchList.headD default).suggestions.length ≤ 5) :=
  ⟨by decide, c9_suggestions_sorted 1 messiToks messiDict.1 messiDict.2 2 2
    70 5 emptyCache _ (by decide)⟩


/-! ### Claim C8: exact matching -/

theorem fuzzyInner_append (maxS : Nat) (score : ℤ) :
    ∀ (ps : List PlayerObj) (acc : List Suggestion),
      ∃ rest, fuzzyInner maxS score ps acc = acc ++ rest ∧
        ∀ s ∈ rest, s.match_type = "fuzzy"
  | [], acc => ⟨[], by simp [fuzzyInner], by simp⟩
  | p :: ps, acc => by
    unfold fuzzyInner
    split
    · exact fuzzyInner_append maxS score ps acc
    · split
      · exact ⟨[mkSugg ("fuzzy") score p], rfl, by
          intro s hs
          rw [List.mem_singleton] at hs
          subst hs
          rfl⟩
      · obtain ⟨rest, heq, hrest⟩ :=
          fuzzyInner_append maxS score ps (acc ++ [mkSugg ("fuzzy") score p])
        refine ⟨mkSugg ("fuzzy") score p :: rest, by simpa using heq, ?_⟩
        intro s hs
        rcases List.mem_cons.mp hs with h | h
        · subst h; rfl
        · exact hrest s h

theorem fuzzyOuter_append (maxS : Nat) (dict : String → List PlayerObj) :
    ∀ (fm : List (String × ℤ)) (acc : List Suggestion),
      ∃ rest, fuzzyOuter maxS dict fm acc = acc ++ rest ∧
        ∀ s ∈ rest, s.match_type = "fuzzy"
  | [], acc => ⟨[], by simp [fuzzyOuter], by simp⟩
  | (mname, score) :: fm, acc => by
    unfold fuzzyOuter
    split
    · exact fuzzyOuter_append maxS dict fm acc
    · obtain ⟨r1, he1, hr1⟩ :=
        fuzzyInner_append maxS score ((dict mname).take 2) acc
      split
      · exact ⟨r1, he1, hr1⟩
      · obtain ⟨r2, he2, hr2⟩ :=
          fuzzyOuter_append maxS dict fm (fuzzyInner maxS score ((dict mname).take 2) acc)
        refine ⟨r1 ++ r2, by rw [he2, he1, List.append_assoc], ?_⟩
        intro s hs
        rcases List.mem_append.mp hs with h | h
        · exact hr1 s h
        · exact hr2 s h

theorem buildSuggestions_exact (dict : String → List PlayerObj)
    (allNames : List String) (thr : ℤ) (maxS : Nat) (chunk : String) :
    ∃ rest, buildSuggestions dict allNames thr maxS chunk =
      ((dict chunk).take maxS).map (mkSugg ("exact") 100) ++ rest ∧
      ∀ s ∈ rest, s.match_type = "fuzzy" := by
  unfold buildSuggestions
  split
  · exact fuzzyOuter_append maxS dict _ _
  · exact ⟨[], by simp, by simp⟩

theorem buildSuggestions_score (dict : String → List PlayerObj)
    (allNames : List String) (thr : ℤ) (maxS : Nat) (chunk : String) :
    ∀ s ∈ buildSuggestions dict allNames thr maxS chunk,
      s.match_type = "exact" → s.score = 100 := by
  obtain ⟨rest, heq, hrest⟩ :=
    buildSuggestions_exact dict allNames thr maxS chunk
  intro s hs hex
  rw [heq] at hs
  rcases List.mem_append.mp hs with h | h
  · obtain ⟨p, _, hp⟩ := List.mem_map.mp h
    rw [← hp]
    rfl
  · rw [hrest s h] at hex
    exact absurd hex (by decide)

/-- The single suggestion expected for the `"lionel messi"` bigram. -/
def messiSugg : Suggestion :=
  { name := some ("Lionel Messi")
    match_type := ("exact")
    score := 100
    career_score := 110
    player :=
      { name := some ("Lionel Messi")
        full_name := none
        nationality := none
        position := none
        current_club := some ("Paris Saint-Germain")
        career_score := 110 } }

/-- The single match record expected from the Messi run. -/
def messiExpected : MatchRecord :=
  { passNum := 1
    ngram := ("lionel messi")
    token_indices := (0, 1)
    segment_start := 0
    segment_end := 0
    avg_probability := 0
    suggestions := [messiSugg] }

/-- Claim C8 (amended only in presentation): the Messi dictionary example
yields exactly one record whose single suggestion is exact with score 100;
the matcher's exact stage is the prefix
`map (mkSugg "exact" 100) (take max_suggestions (dict chunk))` of its
output — i.e. it follows the dictionary's (career-score presorted) record
order — with everything after it of match type `"fuzzy"`; and in any run
started from an empty cache every suggestion of every emitted record with
match type `"exact"` has score 100. -/
theorem c8_exact_stage :
    (process_pass 1 messiToks messiDict.1 messiDict.2 2 2 70 5
        emptyCache).matchList = [messiExpected] ∧
    (∀ (dict : String → List PlayerObj) (allNames : List String) (thr : ℤ)
        (maxS : Nat) (chunk : String),
      ∃ rest, buildSuggestions dict allNames thr maxS chunk =
        ((dict chunk).take maxS).map (mkSugg ("exact") 100) ++ rest ∧
        ∀ s ∈ rest, s.match_type = "fuzzy") ∧
    (∀ (passNum : Nat) (tokens : List Token)
        (dict : String → List PlayerObj) (allNames : List String)
        (minG maxG : Nat) (thr : ℤ) (maxS : Nat),
      ∀ rec ∈ (process_pass passNum tokens dict allNames minG maxG thr maxS
          emptyCache).matchList,
        ∀ s ∈ rec.suggestions, s.match_type = "exact" → s.score = 100) := by
  refine ⟨by decide, buildSuggestions_exact, ?_⟩
  intro passNum tokens dict allNames minG maxG thr maxS
  have hmain : (∀ rec ∈ (process_pass passNum tokens dict allNames minG maxG
      thr maxS emptyCache).matchList,
        ∀ s ∈ rec.suggestions, s.match_type = "exact" → s.score = 100) ∧
      (∀ k v, (process_pass passNum tokens dict allNames minG maxG thr maxS
        emptyCache).cache k = some v →
          ∀ s ∈ v, s.match_type = "exact" → s.score = 100) := by
    unfold process_pass
    refine foldl_induction (processStep passNum dict allNames thr maxS)
      (fun st => (∀ rec ∈ st.matchList,
          ∀ s ∈ rec.suggestions, s.match_type = "exact" → s.score = 100) ∧
        (∀ k v, st.cache k = some v →
          ∀ s ∈ v, s.match_type = "exact" → s.score = 100))
      _ _ ⟨by simp, by intro k v hv; exact absurd hv (by simp [emptyCache])⟩ ?_
    intro st ng _ hP
    obtain ⟨hM, hC⟩ := hP
    have hfound : ∀ (c1 : Cache) (suggs : List Suggestion) (hits calls : Nat),
        (∀ s ∈ suggs, s.match_type = "exact" → s.score = 100) →
        (∀ k v, c1 k = some v →
          ∀ s ∈ v, s.match_type = "exact" → s.score = 100) →
        (∀ rec ∈ (processFound passNum maxS st ng c1 suggs hits
            calls).matchList,
          ∀ s ∈ rec.suggestions, s.match_type = "exact" → s.score = 100) ∧
        (∀ k v, (processFound passNum maxS st ng c1 suggs hits
            calls).cache k = some v →
          ∀ s ∈ v, s.match_type = "exact" → s.score = 100) := by
      intro c1 suggs hits calls hsugg hc1
      have hsorted : ∀ s ∈ sortSuggs suggs,
          s.match_type = "exact" → s.score = 100 :=
        fun s hs => hsugg s ((sortSuggs_perm suggs).subset hs)
      unfold processFound
      split
      · exact ⟨hM, hc1⟩
      · constructor
        · intro rec hrec
          rcases List.mem_append.mp hrec with h | h
          · exact hM rec h
          · rw [List.mem_singleton] at h
            subst h
            intro s hs
            exact hsorted s (List.take_subset _ _ (by simpa [mkRecord] using hs))
        · intro k v hv
          by_cases hk : k = ng.1
          · subst hk
            simp only [cacheUpdate, if_true] at hv
            exact (Option.some.inj hv) ▸ hsorted
          · simp only [cacheUpdate] at hv
            rw [if_neg hk] at hv
            exact hc1 k v hv
    unfold processStep
    split
    · exact ⟨hM, hC⟩
    · cases hc : st.cache ng.1 with
      | some v => exact hfound st.cache v _ _ (hC _ v hc) hC
      | none =>
        refine hfound _ _ _ _ (buildSuggestions_score dict allNames thr maxS
          ng.1) ?_
        intro k v hv
        by_cases hk : k = ng.1
        · subst hk
          simp only [cacheUpdate, if_true] at hv
          exact (Option.some.inj hv) ▸
            buildSuggestions_score dict allNames thr maxS ng.1
        · simp only [cacheUpdate] at hv
          rw [if_neg hk] at hv
          exact hC k v hv
  exact hmain.1

/-- The concrete Messi run shared by several witnesses. -/
def messiRun : PassState :=
  process_pass 1 messiToks messiDict.1 messiDict.2 2 2 70 5 emptyCache

/-- Witness for the empty-cache conjunct of C8 on the concrete Messi run:
its exact suggestion indeed scores 100. -/
theorem c8_exact_stage_witness :
    (((messiRun.matchList.headD default).suggestions.headD
        default).score = 100) :=
  c8_exact_stage.2.2 1 messiToks messiDict.1 messiDict.2 2 2 70 5
    (messiRun.matchList.headD default) (by decide)
    ((messiRun.matchList.headD default).suggestions.headD default)
    (by decide) (by decide)


/-! ### Claim C10: cache write-once and in-place sort -/

theorem contains_append_left {l1 l2 : List String} {a : String}
    (h : l1.contains a = true) : (l1 ++ l2).contains a = true := by
  induction l1 with
  | nil => exact absurd h (by simp)
  | cons b t ih =>
    rw [List.cons_append]
    simp only [List.contains_cons, Bool.or_eq_true] at h ⊢
    cases h with
    | inl hb => exact Or.inl hb
    | inr ht => exact Or.inr (ih ht)

theorem contains_append_self (l : List String) (a : String) :
    (l ++ [a]).contains a = true := by
  induction l with
  | nil => simp [List.contains_cons]
  | cons b t ih =>
    rw [List.cons_append]
    simp only [List.contains_cons, Bool.or_eq_true]
    exact Or.inr ih

/-- Claim C10: for any incoming shared cache, `process_pass` (i) keeps
every pre-existing cache entry — its final value is a permutation of the
incoming value (the only mutation is the in-place sort of the stored list
object), so no entry is deleted and no suggestion set is replaced; (ii)
every fresh key holds, at the end of the call, a permutation of the full
pre-truncation matcher output for that key (the write happens on the cache
miss, possibly with an empty list, and only the in-place sort touches it
afterwards); (iii) the cache entry behind every emitted `MatchRecord` is
itself sorted by (score desc, career score desc) and the record carries
exactly its `max_suggestions`-truncation. -/
theorem c10_cache_write_once (passNum : Nat) (tokens : List Token)
    (dict : String → List PlayerObj) (allNames : List String)
    (minGram maxGram : Nat) (thr : ℤ) (maxS : Nat) (c0 : Cache) :
    (∀ k v, c0 k = some v →
      ∃ v2, (process_pass passNum tokens dict allNames minGram maxGram thr
          maxS c0).cache k = some v2 ∧ List.Perm v2 v) ∧
    (∀ k v, c0 k = none →
      (process_pass passNum tokens dict allNames minGram maxGram thr maxS
          c0).cache k = some v →
        List.Perm v (buildSuggestions dict allNames thr maxS k)) ∧
    (∀ rec ∈ (process_pass passNum tokens dict allNames minGram maxGram thr
        maxS c0).matchList,
      ∃ v, (process_pass passNum tokens dict allNames minGram maxGram thr
          maxS c0).cache rec.ngram = some v ∧
        v.Pairwise suggLe ∧ rec.suggestions = v.take maxS) := by
  have main :
      (fun st : PassState =>
        (∀ k v, c0 k = some v →
          ∃ v2, st.cache k = some v2 ∧ List.Perm v2 v) ∧
        (∀ k v, c0 k = none → st.cache k = some v →
          List.Perm v (buildSuggestions dict allNames thr maxS k)) ∧
        (∀ rec ∈ st.matchList,
          (∃ v, st.cache rec.ngram = some v ∧ v.Pairwise suggLe ∧
            rec.suggestions = v.take maxS) ∧
          st.seen.contains rec.ngram = true))
      (process_pass passNum tokens dict allNames minGram maxGram thr maxS
        c0) := by
    unfold process_pass
    refine foldl_induction (processStep passNum dict allNames thr maxS)
      (fun st : PassState =>
        (∀ k v, c0 k = some v →
          ∃ v2, st.cache k = some v2 ∧ List.Perm v2 v) ∧
        (∀ k v, c0 k = none → st.cache k = some v →
          List.Perm v (buildSuggestions dict allNames thr maxS k)) ∧
        (∀ rec ∈ st.matchList,
          (∃ v, st.cache rec.ngram = some v ∧ v.Pairwise suggLe ∧
            rec.suggestions = v.take maxS) ∧
          st.seen.contains rec.ngram = true))
      _ _ ?_ ?_
    · refine ⟨fun k v hk => ⟨v, hk, List.Perm.refl v⟩, ?_, ?_⟩
      · intro k v hk hv
        have hv2 : c0 k = some v := hv
        rw [hk] at hv2
        exact Option.noConfusion hv2
      · intro rec h
        simp at h
    · intro st ng _ hP
      obtain ⟨h1, h2, h3⟩ := hP
      unfold processStep
      split
      · exact ⟨h1, h2, h3⟩
      · rename_i hns
        have hfound : ∀ (c1 : Cache) (suggs : List Suggestion)
            (hits calls : Nat),
            (∀ k, k ≠ ng.1 → c1 k = st.cache k) →
            c1 ng.1 = some suggs →
            (∀ v, c0 ng.1 = some v → List.Perm suggs v) →
            (c0 ng.1 = none →
              List.Perm suggs
                (buildSuggestions dict allNames thr maxS ng.1)) →
            (fun st : PassState =>
              (∀ k v, c0 k = some v →
                ∃ v2, st.cache k = some v2 ∧ List.Perm v2 v) ∧
              (∀ k v, c0 k = none → st.cache k = some v →
                List.Perm v (buildSuggestions dict allNames thr maxS k)) ∧
              (∀ rec ∈ st.matchList,
                (∃ v, st.cache rec.ngram = some v ∧ v.Pairwise suggLe ∧
                  rec.suggestions = v.take maxS) ∧
                st.seen.contains rec.ngram = true))
            (processFound passNum maxS st ng c1 suggs hits calls) := by
          intro c1 suggs hits calls hc1 hcn hsome hnone
          unfold processFound
          split
          · refine ⟨?_, ?_, ?_⟩
            · intro k v hk
              by_cases hkn : k = ng.1
              · subst hkn
                exact ⟨suggs, hcn, hsome v hk⟩
              · obtain ⟨v2, hv2, hp⟩ := h1 k v hk
                exact ⟨v2, (hc1 k hkn).trans hv2, hp⟩
            · intro k v hk hv
              have hv2 : c1 k = some v := hv
              by_cases hkn : k = ng.1
              · subst hkn
                rw [hcn] at hv2
                cases Option.some.inj hv2
                exact hnone hk
              · rw [hc1 k hkn] at hv2
                exact h2 k v hk hv2
            · intro rec hrec
              obtain ⟨⟨v, hv, hpw, hts⟩, hsn⟩ := h3 rec hrec
              have hne : rec.ngram ≠ ng.1 := by
                intro he
                rw [he] at hsn
                exact hns hsn
              exact ⟨⟨v, (hc1 rec.ngram hne).trans hv, hpw, hts⟩, hsn⟩
          · refine ⟨?_, ?_, ?_⟩
            · intro k v hk
              by_cases hkn : k = ng.1
              · subst hkn
                refine ⟨sortSuggs suggs, ?_, ?_⟩
                · show cacheUpdate c1 ng.1 (sortSuggs suggs) ng.1 =
                    some (sortSuggs suggs)
                  unfold cacheUpdate
                  exact if_pos rfl
                · exact (sortSuggs_perm suggs).trans (hsome v hk)
              · obtain ⟨v2, hv2, hp⟩ := h1 k v hk
                refine ⟨v2, ?_, hp⟩
                show cacheUpdate c1 ng.1 (sortSuggs suggs) k = some v2
                unfold cacheUpdate
                rw [if_neg hkn]
                exact (hc1 k hkn).trans hv2
            · intro k v hk hv
              have hv2 : cacheUpdate c1 ng.1 (sortSuggs suggs) k =
                  some v := hv
              unfold cacheUpdate at hv2
              by_cases hkn : k = ng.1
              · subst hkn
                rw [if_pos rfl] at hv2
                cases Option.some.inj hv2
                exact (sortSuggs_perm suggs).trans (hnone hk)
              · rw [if_neg hkn, hc1 k hkn] at hv2
                exact h2 k v hk hv2
            · intro rec hrec
              have hrec2 : rec ∈ st.matchList ++
                  [mkRecord passNum maxS ng (sortSuggs suggs)] := hrec
              simp only [List.mem_append, List.mem_singleton] at hrec2
              cases hrec2 with
              | inl hold =>
                obtain ⟨⟨v, hv, hpw, hts⟩, hsn⟩ := h3 rec hold
                have hne : rec.ngram ≠ ng.1 := by
                  intro he
                  rw [he] at hsn
                  exact hns hsn
                refine ⟨⟨v, ?_, hpw, hts⟩, ?_⟩
                · show cacheUpdate c1 ng.1 (sortSuggs suggs) rec.ngram =
                    some v
                  unfold cacheUpdate
                  rw [if_neg hne]
                  exact (hc1 rec.ngram hne).trans hv
                · show (st.seen ++ [ng.1]).contains rec.ngram = true
                  exact contains_append_left hsn
              | inr hnew =>
                subst hnew
                refine ⟨⟨sortSuggs suggs, ?_, sortSuggs_sorted suggs,
                  rfl⟩, ?_⟩
                · show cacheUpdate c1 ng.1 (sortSuggs suggs) ng.1 =
                    some (sortSuggs suggs)
                  unfold cacheUpdate
                  exact if_pos rfl
                · show (st.seen ++ [ng.1]).contains ng.1 = true
                  exact contains_append_self st.seen ng.1
        cases hc : st.cache ng.1 with
        | some v =>
          refine hfound st.cache v (st.cacheHits + 1) st.matcherCalls
            (fun k _ => rfl) hc ?_ ?_
          · intro w hw
            obtain ⟨v2, hv2, hp⟩ := h1 ng.1 w hw
            rw [hc] at hv2
            cases Option.some.inj hv2
            exact hp
          · intro hn
            exact h2 ng.1 v hn hc
        | none =>
          refine hfound _ _ st.cacheHits (st.matcherCalls + 1) ?_ ?_ ?_ ?_
          · intro k hk
            unfold cacheUpdate
            exact if_neg hk
          · unfold cacheUpdate
            exact if_pos rfl
          · intro w hw
            obtain ⟨v2, hv2, _⟩ := h1 ng.1 w hw
            rw [hc] at hv2
            exact Option.noConfusion hv2
          · intro _
            exact List.Perm.refl _
  obtain ⟨m1, m2, m3⟩ := main
  exact ⟨m1, m2, fun rec h => (m3 rec h).1⟩

/-- Witness for C10 on the concrete Messi run: the bigram key is fresh in
the empty cache, ends up cached, and the theorem yields that the cached
list is a permutation of the full matcher output for that key. -/
theorem c10_cache_write_once_witness :
    emptyCache ("lionel messi") = none ∧
    (process_pass 1 messiToks messiDict.1 messiDict.2 2 2 70 5
        emptyCache).cache ("lionel messi") =
      some (sortSuggs (buildSuggestions messiDict.1 messiDict.2 70 5
        ("lionel messi"))) ∧
    List.Perm
      (sortSuggs (buildSuggestions messiDict.1 messiDict.2 70 5
        ("lionel messi")))
      (buildSuggestions messiDict.1 messiDict.2 70 5 ("lionel messi")) :=
  ⟨rfl, by decide,
    (c10_cache_write_once 1 messiToks messiDict.1 messiDict.2 2 2 70 5
        emptyCache).2.1 ("lionel messi") _ rfl (by decide)⟩

/-! ### Claim C1: rerunning `process_pass` on its own cache -/

theorem contains_append_cases {l : List String} {a k : String}
    (h : (l ++ [a]).contains k = true) : l.contains k = true ∨ k = a := by
  induction l with
  | nil =>
    simp only [List.nil_append, List.contains_cons, Bool.or_eq_true] at h
    cases h with
    | inl hb => exact Or.inr (eq_of_beq hb)
    | inr hb => exact absurd hb (by simp)
  | cons b t ih =>
    rw [List.cons_append] at h
    simp only [List.contains_cons, Bool.or_eq_true] at h ⊢
    cases h with
    | inl hb => exact Or.inl (Or.inl hb)
    | inr ht =>
      cases ih ht with
      | inl h1 => exact Or.inl (Or.inr h1)
      | inr h2 => exact Or.inr h2

theorem isEmpty_eq_nil {α : Type _} {l : List α} (h : l.isEmpty = true) :
    l = [] := by
  cases l with
  | nil => rfl
  | cons a t => exact Bool.noConfusion h

theorem processFound_empty {passNum maxS : Nat} {st : PassState}
    {ng : NGram} {c1 : Cache} {suggs : List Suggestion} {hits calls : Nat}
    (h : suggs.isEmpty = true) :
    processFound passNum maxS st ng c1 suggs hits calls =
      { st with cache := c1, cacheHits := hits, matcherCalls := calls } := by
  unfold processFound
  rw [if_pos h]

theorem processFound_nonempty {passNum maxS : Nat} {st : PassState}
    {ng : NGram} {c1 : Cache} {suggs : List Suggestion} {hits calls : Nat}
    (h : suggs.isEmpty = false) :
    processFound passNum maxS st ng c1 suggs hits calls =
      { matchList :=
          st.matchList ++ [mkRecord passNum maxS ng (sortSuggs suggs)],
        seen := st.seen ++ [ng.1],
        cache := cacheUpdate c1 ng.1 (sortSuggs suggs),
        cacheHits := hits, matcherCalls := calls } := by
  unfold processFound
  rw [if_neg (by intro hh; rw [h] at hh; exact Bool.noConfusion hh)]

theorem processStep_seen {passNum : Nat} {dict : String → List PlayerObj}
    {allNames : List String} {thr : ℤ} {maxS : Nat} {st : PassState}
    {ng : NGram} (h : st.seen.contains ng.1 = true) :
    processStep passNum dict allNames thr maxS st ng = st := by
  unfold processStep
  rw [if_pos h]

theorem processStep_hit {passNum : Nat} {dict : String → List PlayerObj}
    {allNames : List String} {thr : ℤ} {maxS : Nat} {st : PassState}
    {ng : NGram} {v : List Suggestion}
    (h : st.seen.contains ng.1 = false) (hc : st.cache ng.1 = some v) :
    processStep passNum dict allNames thr maxS st ng =
      processFound passNum maxS st ng st.cache v (st.cacheHits + 1)
        st.matcherCalls := by
  unfold processStep
  rw [if_neg (by intro hh; rw [h] at hh; exact Bool.noConfusion hh), hc]

theorem processStep_miss {passNum : Nat} {dict : String → List PlayerObj}
    {allNames : List String} {thr : ℤ} {maxS : Nat} {st : PassState}
    {ng : NGram}
    (h : st.seen.contains ng.1 = false) (hc : st.cache ng.1 = none) :
    processStep passNum dict allNames thr maxS st ng =
      processFound passNum maxS st ng
        (cacheUpdate st.cache ng.1
          (buildSuggestions dict allNames thr maxS ng.1))
        (buildSuggestions dict allNames thr maxS ng.1) st.cacheHits
        (st.matcherCalls + 1) := by
  unfold processStep
  rw [if_neg (by intro hh; rw [h] at hh; exact Bool.noConfusion hh), hc]

/-- A cache is canonical when every entry holds exactly the sorted full
matcher output for its key — the shape every entry written by
`process_pass` has (an empty stored list equals its own sort). -/
def canonCache (dict : String → List PlayerObj) (allNames : List String)
    (thr : ℤ) (maxS : Nat) (c : Cache) : Prop :=
  ∀ k v, c k = some v →
    v = sortSuggs (buildSuggestions dict allNames thr maxS k)

/-- Effect of one unseen step on match list, seen list and cache
canonicity: the emitted record and seen entry depend only on the n-gram
(not on whether the probe hit), and canonicity is preserved. -/
theorem processStep_canon {passNum : Nat} {dict : String → List PlayerObj}
    {allNames : List String} {thr : ℤ} {maxS : Nat} {st : PassState}
    {ng : NGram} (hns : st.seen.contains ng.1 = false)
    (hc : canonCache dict allNames thr maxS st.cache) :
    (processStep passNum dict allNames thr maxS st ng).matchList =
      st.matchList ++
        (if (buildSuggestions dict allNames thr maxS ng.1).isEmpty then []
         else [mkRecord passNum maxS ng
           (sortSuggs (buildSuggestions dict allNames thr maxS ng.1))]) ∧
    (processStep passNum dict allNames thr maxS st ng).seen =
      st.seen ++
        (if (buildSuggestions dict allNames thr maxS ng.1).isEmpty then []
         else [ng.1]) ∧
    canonCache dict allNames thr maxS
      (processStep passNum dict allNames thr maxS st ng).cache := by
  cases hcc : st.cache ng.1 with
  | none =>
    rw [processStep_miss hns hcc]
    cases hbe : (buildSuggestions dict allNames thr maxS ng.1).isEmpty with
    | true =>
      rw [processFound_empty hbe]
      refine ⟨?_, ?_, ?_⟩
      · rw [if_pos rfl, List.append_nil]
      · rw [if_pos rfl, List.append_nil]
      · intro k v hv
        have hv2 : cacheUpdate st.cache ng.1
            (buildSuggestions dict allNames thr maxS ng.1) k = some v := hv
        unfold cacheUpdate at hv2
        by_cases hkn : k = ng.1
        · subst hkn
          rw [if_pos rfl] at hv2
          cases Option.some.inj hv2
          rw [isEmpty_eq_nil hbe]
          rfl
        · rw [if_neg hkn] at hv2
          exact hc k v hv2
    | false =>
      rw [processFound_nonempty hbe]
      refine ⟨?_, ?_, ?_⟩
      · rw [if_neg (fun hh => Bool.noConfusion hh)]
      · rw [if_neg (fun hh => Bool.noConfusion hh)]
      · intro k v hv
        have hv2 : cacheUpdate
            (cacheUpdate st.cache ng.1
              (buildSuggestions dict allNames thr maxS ng.1)) ng.1
            (sortSuggs (buildSuggestions dict allNames thr maxS ng.1)) k =
            some v := hv
        unfold cacheUpdate at hv2
        by_cases hkn : k = ng.1
        · subst hkn
          rw [if_pos rfl] at hv2
          exact (Option.some.inj hv2).symm
        · rw [if_neg hkn, if_neg hkn] at hv2
          exact hc k v hv2
  | some v =>
    have hveq : v = sortSuggs (buildSuggestions dict allNames thr maxS
        ng.1) := hc ng.1 v hcc
    subst hveq
    rw [processStep_hit hns hcc]
    cases hbe : (buildSuggestions dict allNames thr maxS ng.1).isEmpty with
    | true =>
      have hse : (sortSuggs (buildSuggestions dict allNames thr maxS
          ng.1)).isEmpty = true := by
        rw [sortSuggs_isEmpty]
        exact hbe
      rw [processFound_empty hse]
      refine ⟨?_, ?_, ?_⟩
      · rw [if_pos rfl, List.append_nil]
      · rw [if_pos rfl, List.append_nil]
      · exact hc
    | false =>
      have hse : (sortSuggs (buildSuggestions dict allNames thr maxS
          ng.1)).isEmpty = false := by
        rw [sortSuggs_isEmpty]
        exact hbe
      rw [processFound_nonempty hse]
      refine ⟨?_, ?_, ?_⟩
      · rw [if_neg (fun hh => Bool.noConfusion hh), sortSuggs_idem]
      · rw [if_neg (fun hh => Bool.noConfusion hh)]
      · intro k v hv
        have hv2 : cacheUpdate st.cache ng.1
            (sortSuggs (sortSuggs (buildSuggestions dict allNames thr maxS
              ng.1))) k = some v := hv
        unfold cacheUpdate at hv2
        by_cases hkn : k = ng.1
        · subst hkn
          rw [if_pos rfl] at hv2
          rw [← (Option.some.inj hv2), sortSuggs_idem]
        · rw [if_neg hkn] at hv2
          exact hc k v hv2

/-- Two runs whose states agree on match list and seen list, and whose
caches are both canonical, stay in lockstep: the emitted match lists (and
seen lists) coincide and both caches stay canonical. -/
theorem fold_canon_pair (passNum : Nat) (dict : String → List PlayerObj)
    (allNames : List String) (thr : ℤ) (maxS : Nat) :
    ∀ (l : List NGram) (st1 st2 : PassState),
      st1.matchList = st2.matchList → st1.seen = st2.seen →
      canonCache dict allNames thr maxS st1.cache →
      canonCache dict allNames thr maxS st2.cache →
      (l.foldl (processStep passNum dict allNames thr maxS)
          st1).matchList =
        (l.foldl (processStep passNum dict allNames thr maxS)
          st2).matchList ∧
      (l.foldl (processStep passNum dict allNames thr maxS) st1).seen =
        (l.foldl (processStep passNum dict allNames thr maxS) st2).seen ∧
      canonCache dict allNames thr maxS
        (l.foldl (processStep passNum dict allNames thr maxS)
          st1).cache ∧
      canonCache dict allNames thr maxS
        (l.foldl (processStep passNum dict allNames thr maxS) st2).cache
  | [], st1, st2, hm, hs, hc1, hc2 => ⟨hm, hs, hc1, hc2⟩
  | ng :: l, st1, st2, hm, hs, hc1, hc2 => by
    rw [List.foldl_cons, List.foldl_cons]
    cases hcond : st1.seen.contains ng.1 with
    | true =>
      have hcond2 : st2.seen.contains ng.1 = true := by
        rw [← hs]
        exact hcond
      rw [processStep_seen hcond, processStep_seen hcond2]
      exact fold_canon_pair passNum dict allNames thr maxS l st1 st2 hm hs
        hc1 hc2
    | false =>
      have hcond2 : st2.seen.contains ng.1 = false := by
        rw [← hs]
        exact hcond
      obtain ⟨hm1, hs1, hcc1⟩ :=
        @processStep_canon passNum dict allNames thr maxS st1 ng hcond hc1
      obtain ⟨hm2, hs2, hcc2⟩ :=
        @processStep_canon passNum dict allNames thr maxS st2 ng hcond2 hc2
      exact fold_canon_pair passNum dict allNames thr maxS l _ _
        (by rw [hm1, hm2, hm]) (by rw [hs1, hs2, hs]) hcc1 hcc2

/-- One step never removes a cache entry. -/
theorem processStep_dom {passNum : Nat} {dict : String → List PlayerObj}
    {allNames : List String} {thr : ℤ} {maxS : Nat} {st : PassState}
    {ng : NGram} {k : String} (h : st.cache k ≠ none) :
    (processStep passNum dict allNames thr maxS st ng).cache k ≠ none := by
  cases hcond : st.seen.contains ng.1 with
  | true =>
    rw [processStep_seen hcond]
    exact h
  | false =>
    cases hcc : st.cache ng.1 with
    | some v =>
      rw [processStep_hit hcond hcc]
      cases hbv : v.isEmpty with
      | true =>
        rw [processFound_empty hbv]
        exact h
      | false =>
        rw [processFound_nonempty hbv]
        show cacheUpdate st.cache ng.1 (sortSuggs v) k ≠ none
        unfold cacheUpdate
        by_cases hk : k = ng.1
        · rw [if_pos hk]
          exact fun hh => Option.noConfusion hh
        · rw [if_neg hk]
          exact h
    | none =>
      rw [processStep_miss hcond hcc]
      cases hbv :
          (buildSuggestions dict allNames thr maxS ng.1).isEmpty with
      | true =>
        rw [processFound_empty hbv]
        show cacheUpdate st.cache ng.1
          (buildSuggestions dict allNames thr maxS ng.1) k ≠ none
        unfold cacheUpdate
        by_cases hk : k = ng.1
        · rw [if_pos hk]
          exact fun hh => Option.noConfusion hh
        · rw [if_neg hk]
          exact h
      | false =>
        rw [processFound_nonempty hbv]
        show cacheUpdate
          (cacheUpdate st.cache ng.1
            (buildSuggestions dict allNames thr maxS ng.1)) ng.1
          (sortSuggs (buildSuggestions dict allNames thr maxS ng.1)) k ≠
            none
        unfold cacheUpdate
        by_cases hk : k = ng.1
        · rw [if_pos hk]
          exact fun hh => Option.noConfusion hh
        · rw [if_neg hk, if_neg hk]
          exact h

/-- A whole fold never removes a cache entry. -/
theorem fold_dom {passNum : Nat} {dict : String → List PlayerObj}
    {allNames : List String} {thr : ℤ} {maxS : Nat} :
    ∀ (l : List NGram) (st : PassState) (k : String), st.cache k ≠ none →
      (l.foldl (processStep passNum dict allNames thr maxS) st).cache k ≠
        none
  | [], _, _, h => h
  | ng :: l, st, k, h => by
    rw [List.foldl_cons]
    exact fold_dom l _ k (processStep_dom h)

/-- Every seen n-gram text has a cache entry. -/
def seenDom (st : PassState) : Prop :=
  ∀ k, st.seen.contains k = true → st.cache k ≠ none

/-- One step preserves `seenDom` and guarantees a cache entry for its own
n-gram text. -/
theorem processStep_seenDom {passNum : Nat}
    {dict : String → List PlayerObj} {allNames : List String} {thr : ℤ}
    {maxS : Nat} {st : PassState} {ng : NGram} (hsd : seenDom st) :
    seenDom (processStep passNum dict allNames thr maxS st ng) ∧
    (processStep passNum dict allNames thr maxS st ng).cache ng.1 ≠
      none := by
  cases hcond : st.seen.contains ng.1 with
  | true =>
    rw [processStep_seen hcond]
    exact ⟨hsd, hsd ng.1 hcond⟩
  | false =>
    cases hcc : st.cache ng.1 with
    | some v =>
      rw [processStep_hit hcond hcc]
      cases hbv : v.isEmpty with
      | true =>
        rw [processFound_empty hbv]
        refine ⟨fun k hk => hsd k hk, ?_⟩
        show st.cache ng.1 ≠ none
        rw [hcc]
        exact fun hh => Option.noConfusion hh
      | false =>
        rw [processFound_nonempty hbv]
        constructor
        · intro k hk
          have hk2 : (st.seen ++ [ng.1]).contains k = true := hk
          show cacheUpdate st.cache ng.1 (sortSuggs v) k ≠ none
          unfold cacheUpdate
          by_cases hkn : k = ng.1
          · rw [if_pos hkn]
            exact fun hh => Option.noConfusion hh
          · rw [if_neg hkn]
            cases contains_append_cases hk2 with
            | inl hin => exact hsd k hin
            | inr heq => exact absurd heq hkn
        · show cacheUpdate st.cache ng.1 (sortSuggs v) ng.1 ≠ none
          unfold cacheUpdate
          rw [if_pos rfl]
          exact fun hh => Option.noConfusion hh
    | none =>
      rw [processStep_miss hcond hcc]
      cases hbv :
          (buildSuggestions dict allNames thr maxS ng.1).isEmpty with
      | true =>
        rw [processFound_empty hbv]
        constructor
        · intro k hk
          have hk2 : st.seen.contains k = true := hk
          show cacheUpdate st.cache ng.1
            (buildSuggestions dict allNames thr maxS ng.1) k ≠ none
          unfold cacheUpdate
          by_cases hkn : k = ng.1
          · rw [if_pos hkn]
            exact fun hh => Option.noConfusion hh
          · rw [if_neg hkn]
            exact hsd k hk2
        · show cacheUpdate st.cache ng.1
            (buildSuggestions dict allNames thr maxS ng.1) ng.1 ≠ none
          unfold cacheUpdate
          rw [if_pos rfl]
          exact fun hh => Option.noConfusion hh
      | false =>
        rw [processFound_nonempty hbv]
        constructor
        · intro k hk
          have hk2 : (st.seen ++ [ng.1]).contains k = true := hk
          show cacheUpdate
            (cacheUpdate st.cache ng.1
              (buildSuggestions dict allNames thr maxS ng.1)) ng.1
            (sortSuggs (buildSuggestions dict allNames thr maxS ng.1)) k ≠
              none
          unfold cacheUpdate
          by_cases hkn : k = ng.1
          · rw [if_pos hkn]
            exact fun hh => Option.noConfusion hh
          · rw [if_neg hkn, if_neg hkn]
            cases contains_append_cases hk2 with
            | inl hin => exact hsd k hin
            | inr heq => exact absurd heq hkn
        · show cacheUpdate
            (cacheUpdate st.cache ng.1
              (buildSuggestions dict allNames thr maxS ng.1)) ng.1
            (sortSuggs (buildSuggestions dict allNames thr maxS ng.1))
              ng.1 ≠ none
          unfold cacheUpdate
          rw [if_pos rfl]
          exact fun hh => Option.noConfusion hh

/-- After a fold, every processed n-gram text is cached. -/
theorem fold_coverage {passNum : Nat} {dict : String → List PlayerObj}
    {allNames : List String} {thr : ℤ} {maxS : Nat} :
    ∀ (l : List NGram) (st : PassState), seenDom st →
      (∀ ng ∈ l,
        (l.foldl (processStep passNum dict allNames thr maxS) st).cache
          ng.1 ≠ none) ∧
      seenDom (l.foldl (processStep passNum dict allNames thr maxS) st)
  | [], st, hsd => ⟨fun ng h => absurd h (List.not_mem_nil ng), hsd⟩
  | ng :: l, st, hsd => by
    rw [List.foldl_cons]
    obtain ⟨hsd2, hself⟩ :=
      @processStep_seenDom passNum dict allNames thr maxS st ng hsd
    obtain ⟨ih1, ih2⟩ := fold_coverage l
      (processStep passNum dict allNames thr maxS st ng) hsd2
    refine ⟨?_, ih2⟩
    intro ng2 hng2
    cases List.mem_cons.mp hng2 with
    | inl h =>
      subst h
      exact fold_dom l _ ng2.1 hself
    | inr h => exact ih1 ng2 h

/-- A cached probe performs no matcher work. -/
theorem processStep_calls {passNum : Nat}
    {dict : String → List PlayerObj} {allNames : List String} {thr : ℤ}
    {maxS : Nat} {st : PassState} {ng : NGram}
    (h : st.cache ng.1 ≠ none) :
    (processStep passNum dict allNames thr maxS st ng).matcherCalls =
      st.matcherCalls := by
  cases hcond : st.seen.contains ng.1 with
  | true => rw [processStep_seen hcond]
  | false =>
    cases hcc : st.cache ng.1 with
    | none => exact absurd hcc h
    | some v =>
      rw [processStep_hit hcond hcc]
      cases hbv : v.isEmpty with
      | true => rw [processFound_empty hbv]
      | false => rw [processFound_nonempty hbv]

/-- If every probed n-gram text is already cached, a whole fold performs no
matcher work. -/
theorem fold_calls {passNum : Nat} {dict : String → List PlayerObj}
    {allNames : List String} {thr : ℤ} {maxS : Nat} :
    ∀ (l : List NGram) (st : PassState),
      (∀ ng ∈ l, st.cache ng.1 ≠ none) →
      (l.foldl (processStep passNum dict allNames thr maxS)
          st).matcherCalls = st.matcherCalls
  | [], _, _ => rfl
  | ng :: l, st, h => by
    rw [List.foldl_cons]
    have h2 : ∀ ng2 ∈ l,
        (processStep passNum dict allNames thr maxS st ng).cache ng2.1 ≠
          none :=
      fun ng2 hm => processStep_dom (h ng2 (List.mem_cons_of_mem ng hm))
    rw [fold_calls l _ h2,
      processStep_calls (h ng (List.mem_cons_self ng l))]

/-- Claim C1: for every token list, dictionary and parameter setting, a
second `process_pass` call started from the cache populated by a first
call (itself started from the empty cache) returns a `MatchRecord` list
equal to the first call's — which is exactly the empty-cache run's — and
performs no exact or fuzzy matcher work: the cache-miss branch, the only
place the matcher runs, never executes, so every probed n-gram is a cache
hit. -/
theorem c1_cached_rerun (passNum : Nat) (tokens : List Token)
    (dict : String → List PlayerObj) (allNames : List String)
    (minGram maxGram : Nat) (thr : ℤ) (maxS : Nat) :
    (process_pass passNum tokens dict allNames minGram maxGram thr maxS
        (process_pass passNum tokens dict allNames minGram maxGram thr
          maxS emptyCache).cache).matchList =
      (process_pass passNum tokens dict allNames minGram maxGram thr maxS
        emptyCache).matchList ∧
    (process_pass passNum tokens dict allNames minGram maxGram thr maxS
        (process_pass passNum tokens dict allNames minGram maxGram thr
          maxS emptyCache).cache).matcherCalls = 0 := by
  unfold process_pass
  have hce : canonCache dict allNames thr maxS emptyCache :=
    fun k v hv => Option.noConfusion hv
  have hr1 := fold_canon_pair passNum dict allNames thr maxS
    ((build_ngrams tokens minGram maxGram).insertionSort
      (fun a b => (splitWs b.1).length ≤ (splitWs a.1).length))
    ⟨[], [], emptyCache, 0, 0⟩ ⟨[], [], emptyCache, 0, 0⟩ rfl rfl hce hce
  have hr1canon := hr1.2.2.1
  have hpair := fold_canon_pair passNum dict allNames thr maxS
    ((build_ngrams tokens minGram maxGram).insertionSort
      (fun a b => (splitWs b.1).length ≤ (splitWs a.1).length))
    ⟨[], [],
      (((build_ngrams tokens minGram maxGram).insertionSort
          (fun a b => (splitWs b.1).length ≤ (splitWs a.1).length)).foldl
        (processStep passNum dict allNames thr maxS)
        ⟨[], [], emptyCache, 0, 0⟩).cache, 0, 0⟩
    ⟨[], [], emptyCache, 0, 0⟩ rfl rfl hr1canon hce
  have hsd0 : seenDom (⟨[], [], emptyCache, 0, 0⟩ : PassState) := by
    intro k hk
    exact absurd hk (by simp)
  have hcov := (@fold_coverage passNum dict allNames thr maxS
    ((build_ngrams tokens minGram maxGram).insertionSort
      (fun a b => (splitWs b.1).length ≤ (splitWs a.1).length))
    ⟨[], [], emptyCache, 0, 0⟩ hsd0).1
  refine ⟨hpair.1, ?_⟩
  exact fold_calls
    ((build_ngrams tokens minGram maxGram).insertionSort
      (fun a b => (splitWs b.1).length ≤ (splitWs a.1).length))
    ⟨[], [],
      (((build_ngrams tokens minGram maxGram).insertionSort
          (fun a b => (splitWs b.1).length ≤ (splitWs a.1).length)).foldl
        (processStep passNum dict allNames thr maxS)
        ⟨[], [], emptyCache, 0, 0⟩).cache, 0, 0⟩
    (fun ng hm => hcov ng hm)

/-! ### Claim C6: career scores and dictionary construction -/

/-- `table.get(key, dflt)` is bounded below by any common lower bound of
the table values and the default. -/
theorem lookup_getD_ge (c : ℚ) :
    ∀ (tbl : List (String × ℚ)) (k : String) (d : ℚ),
      (∀ p ∈ tbl, c ≤ p.2) → c ≤ d → c ≤ (tbl.lookup k).getD d
  | [], _, _, _, hd => hd
  | (a, v) :: t, k, d, htbl, hd => by
    cases hka : (k == a) with
    | true =>
      have h1 : (((a, v) :: t).lookup k).getD d = v := by
        simp [List.lookup, hka]
      rw [h1]
      exact htbl (a, v) (List.mem_cons_self _ _)
    | false =>
      have h1 : (((a, v) :: t).lookup k).getD d = (t.lookup k).getD d := by
        simp [List.lookup, hka]
      rw [h1]
      exact lookup_getD_ge c t k d
        (fun p hp => htbl p (List.mem_cons_of_mem _ hp)) hd

/-- `round(x, 2)` never drops below an integer lower bound of `x`. -/
theorem round2_ge_int (k : ℤ) (q : ℚ) (h : (k : ℚ) ≤ q) :
    ((k : ℤ) : ℚ) ≤ round2 q := by
  have h1 : (100 * k : ℤ) ≤ ⌊q * 100⌋ := by
    apply Int.le_floor.mpr
    push_cast
    linarith
  unfold round2
  dsimp only
  rw [le_div_iff₀ (by norm_num : (0:ℚ) < 100)]
  have hcast : ((100 * k : ℤ) : ℚ) = (k : ℚ) * 100 := by
    push_cast
    ring
  rw [← hcast]
  apply Int.cast_le.mpr
  split
  · exact h1
  · split
    · exact le_trans h1 (by linarith)
    · split
      · exact h1
      · exact le_trans h1 (by linarith)

/-- Every career score is at least 50: the current-club term is at least
30 (all table entries exceed the default 30), the current-league term at
least 20, and every other contribution is non-negative — provided only
that `log10` is non-negative on arguments at least 2, which holds for the
real `math.log10`. -/
theorem career_score_ge_50 (lg : ℕ → ℚ) (hlg : ∀ n, 2 ≤ n → 0 ≤ lg n)
    (p : PlayerObj) : 50 ≤ compute_career_score lg p := by
  have hs1 : (30:ℚ) ≤ weightOf CLUB_WEIGHTS (lowerStr (optStr p.club))
      30 :=
    lookup_getD_ge 30 CLUB_WEIGHTS _ 30 (by decide) le_rfl
  have hs2 : (0:ℚ) ≤ (p.clubs.map
      (fun c => weightOf CLUB_WEIGHTS (lowerStr c) 20 * (3/10))).sum := by
    apply List.sum_nonneg
    intro x hx
    obtain ⟨c, _, hc⟩ := List.mem_map.mp hx
    rw [← hc]
    exact mul_nonneg
      (lookup_getD_ge 0 CLUB_WEIGHTS _ 20 (by decide) (by norm_num))
      (by norm_num)
  have hs3 : (20:ℚ) ≤ weightOf LEAGUE_WEIGHTS (lowerStr (optStr p.league))
      20 :=
    lookup_getD_ge 20 LEAGUE_WEIGHTS _ 20 (by decide) le_rfl
  have hs4 : (0:ℚ) ≤ (p.leagues.map
      (fun l => weightOf LEAGUE_WEIGHTS (lowerStr l) 15 * (1/5))).sum := by
    apply List.sum_nonneg
    intro x hx
    obtain ⟨l, _, hl⟩ := List.mem_map.mp hx
    rw [← hl]
    exact mul_nonneg
      (lookup_getD_ge 0 LEAGUE_WEIGHTS _ 15 (by decide) (by norm_num))
      (by norm_num)
  have hs5 : (0:ℚ) ≤ (if 0 < p.minutes_played then
      min 25 (lg (p.minutes_played + 1) * 8) else 0) := by
    split
    · refine le_min (by norm_num) ?_
      exact mul_nonneg (hlg _ (by omega)) (by norm_num)
    · exact le_rfl
  have hs6 : (0:ℚ) ≤ (p.goals : ℚ) * (3/2) + (p.assists : ℚ) :=
    add_nonneg (mul_nonneg (Nat.cast_nonneg _) (by norm_num))
      (Nat.cast_nonneg _)
  have hs7 : (0:ℚ) ≤ (p.sources.length : ℚ) * 5 :=
    mul_nonneg (Nat.cast_nonneg _) (by norm_num)
  have hs8 : (0:ℚ) ≤ (if p.sources.contains ("worldcup") then (30:ℚ)
      else 0) := by
    split
    · norm_num
    · exact le_rfl
  have hsum := round2_ge_int 50 _
    (by push_cast; linarith :
      ((50 : ℤ) : ℚ) ≤
        weightOf CLUB_WEIGHTS (lowerStr (optStr p.club)) 30 +
        (p.clubs.map
          (fun c => weightOf CLUB_WEIGHTS (lowerStr c) 20 * (3/10))).sum +
        weightOf LEAGUE_WEIGHTS (lowerStr (optStr p.league)) 20 +
        (p.leagues.map
          (fun l => weightOf LEAGUE_WEIGHTS (lowerStr l) 15 *
            (1/5))).sum +
        (if 0 < p.minutes_played then
          min 25 (lg (p.minutes_played + 1) * 8) else 0) +
        ((p.goals : ℚ) * (3/2) + (p.assists : ℚ)) +
        (p.sources.length : ℚ) * 5 +
        (if p.sources.contains ("worldcup") then (30:ℚ) else 0))
  have h50 : ((50 : ℤ) : ℚ) = (50 : ℚ) := by norm_num
  rw [h50] at hsum
  exact hsum

/-- Refutation of the concrete half of claim C6: no input record at all
can produce a career score of 40.0 (scores are bounded below by 50), so
the claimed pair of players with scores 80.0 and 40.0 sharing key
`"silva"` cannot exist.  (`log10` is instantiated at the zero function,
which satisfies the non-negativity the real `math.log10` has on the
arguments used.) -/
theorem c6_counterexample :
    ¬ ∃ p : PlayerObj, compute_career_score (fun _ => 0) p = 40 := by
  rintro ⟨p, hp⟩
  have h := career_score_ge_50 (fun _ => 0) (fun n hn => le_refl 0) p
  rw [hp] at h
  norm_num at h

def silvaTop : PlayerObj := { name := some ("David Silva"), goals := 20 }

def silvaLow : PlayerObj := { name := some ("Thiago Silva") }

/-- Claim C6, amended (the 40.0 player replaced by an achievable 50.0
one): every computed career score is non-negative (indeed at least 50);
for every normalized key, the stored record list is sorted by career
score descending; and two players sharing normalized key `"silva"` with
scores 80.0 and 50.0 come back from the `"silva"` lookup with the 80.0
player first.  Determinism of the construction is inherent to the pure
embedding. -/
theorem c6_career_dictionary (lg : ℕ → ℚ) (records : List PlayerObj)
    (hlg : ∀ n, 2 ≤ n → 0 ≤ lg n) :
    (∀ p, 0 ≤ compute_career_score lg p) ∧
    (∀ k, ((load_players lg records).1 k).Pairwise
      (fun a b => (b.career_score).getD 0 ≤ (a.career_score).getD 0)) ∧
    (((load_players (fun _ => 0) [silvaLow, silvaTop]).1 ("silva")).map
        (fun p => ((p.career_score).getD 0, optStr p.name)) =
      [(80, ("David Silva")), (50, ("Thiago Silva"))]) := by
  refine ⟨?_, ?_, by decide⟩
  · intro p
    exact le_trans (by norm_num) (career_score_ge_50 lg hlg p)
  · intro k
    unfold load_players
    dsimp only
    haveI : IsTotal PlayerObj
        (fun a b => (b.career_score).getD 0 ≤ (a.career_score).getD 0) :=
      ⟨fun a b => le_total _ _⟩
    haveI : IsTrans PlayerObj
        (fun a b => (b.career_score).getD 0 ≤ (a.career_score).getD 0) :=
      ⟨fun a b c h1 h2 => le_trans h2 h1⟩
    exact List.sorted_insertionSort _ _

/-- Witness for the amended claim C6 at the zero `log10` and the concrete
silva records. -/
theorem c6_career_dictionary_witness :
    (∀ n, 2 ≤ n → (0:ℚ) ≤ (fun _ => (0:ℚ)) n) ∧
    (0:ℚ) ≤ compute_career_score (fun _ => 0) silvaTop ∧
    ((load_players (fun _ => 0) [silvaLow, silvaTop]).1 ("silva")).Pairwise
      (fun a b => (b.career_score).getD 0 ≤ (a.career_score).getD 0) :=
  ⟨fun n hn => le_refl 0,
    (c6_career_dictionary (fun _ => 0) [silvaLow, silvaTop]
      (fun n hn => le_refl 0)).1 silvaTop,
    (c6_career_dictionary (fun _ => 0) [silvaLow, silvaTop]
      (fun n hn => le_refl 0)).2.1 ("silva")⟩

end Mazad
